import Mathlib

set_option maxRecDepth 8000

/-!
Shallow embedding of the somalijobs scraper (src/scraper.py).
Python strings are modelled as List Char; every function below is translated
from the source file, with BeautifulSoup DOM queries replaced by explicit
input fields of a Doc structure (the DOM walks themselves are out of scope,
their results are inputs).
-/

/-- Python str.isspace and the regex whitespace class (the set of characters
stripped by str.strip and matched by a backslash-s in a Python pattern). -/
def pyIsSpace (c : Char) : Bool :=
  c = ' ' || c = '\t' || c = '\n' || c = '\r' || c = '\x0b' || c = '\x0c' ||
  c = '\x1c' || c = '\x1d' || c = '\x1e' || c = '\x1f' || c = '\x85' || c = '\xa0' ||
  c = ' ' || c = ' ' || c = ' ' || c = ' ' || c = ' ' ||
  c = ' ' || c = ' ' || c = ' ' || c = ' ' || c = ' ' ||
  c = ' ' || c = ' ' || c = ' ' || c = ' ' || c = ' ' ||
  c = ' ' || c = '　'

/-- Python str.lower, restricted to the ASCII range that the vocabulary uses. -/
def pyLower (l : List Char) : List Char := l.map Char.toLower

/-- Python str.lstrip with default whitespace. -/
def pyLStrip (l : List Char) : List Char := l.dropWhile pyIsSpace

/-- Python str.rstrip with default whitespace. -/
def pyRStrip (l : List Char) : List Char := (l.reverse.dropWhile pyIsSpace).reverse

/-- Python str.strip with default whitespace. -/
def pyStrip (l : List Char) : List Char := pyLStrip (pyRStrip l)

/-- Python text.split with separator a single newline. -/
def splitOnNl : List Char → List (List Char)
  | [] => [[]]
  | c :: cs =>
    if c = '\n' then [] :: splitOnNl cs
    else
      match splitOnNl cs with
      | [] => [[c]]
      | h :: t => (c :: h) :: t

/-- Python newline.join over a list of lines. -/
def joinNl : List (List Char) → List Char
  | [] => []
  | x :: xs =>
    match xs with
    | [] => x
    | y :: ys => x ++ '\n' :: joinNl (y :: ys)

/-- Python str.title for the ASCII range: a letter that follows a letter is
lowercased, a letter that follows a non-letter is uppercased. -/
def pyTitleGo : Bool → List Char → List Char
  | _, [] => []
  | prevCased, c :: cs =>
    if c.isAlpha then (if prevCased then c.toLower else c.toUpper) :: pyTitleGo true cs
    else c :: pyTitleGo false cs

/-- Python str.title. -/
def pyTitle (l : List Char) : List Char := pyTitleGo false l

/-- Whether pat is a leading segment of the text (helper for the substring test). -/
def startsL : List Char → List Char → Bool
  | [], _ => true
  | _ :: _, [] => false
  | p :: ps, c :: cs => p = c && startsL ps cs

/-- Python substring membership, the `pat in text` operator on strings. -/
def isSub (pat : List Char) : List Char → Bool
  | [] => startsL pat []
  | c :: cs => startsL pat (c :: cs) || isSub pat cs

/-- Replacement of the non-breaking space by a plain space (scraper.py line 83). -/
def fixNbsp (c : Char) : Char := if c = '\xa0' then ' ' else c

/-- Replacement of the middle dot by a bullet (scraper.py line 85). -/
def fixDot (c : Char) : Char := if c = '·' then '•' else c

/-- The three literal character substitutions at the top of clean_text, in
source order: non-breaking space to space, removal of the double-encoding
artifact, middle dot to bullet. -/
def fixArtifacts (t : List Char) : List Char :=
  ((t.map fixNbsp).filter (fun c => c ≠ 'Â')).map fixDot

/-- Case-insensitive character comparison, modelling re.I on ASCII letters. -/
def lowEq (a b : Char) : Bool := a.toLower = b.toLower

/-- Consume the pattern characters case-insensitively from the front of the
text, returning the remainder on success. -/
def expectCI : List Char → List Char → Option (List Char)
  | [], l => some l
  | _ :: _, [] => none
  | p :: ps, c :: cs => if lowEq c p then expectCI ps cs else none

/-- One attempted match of the pattern bracket email backslash-s star protected
bracket at the head of the text (the regex of scraper.py line 88).  The starred
whitespace is taken greedily; since no whitespace character can begin the
literal that follows, greedy matching without backtracking is exact. -/
def matchEmail (l : List Char) : Option (List Char) :=
  match expectCI "[email".data l with
  | none => none
  | some r1 => expectCI "protected]".data (r1.dropWhile pyIsSpace)

/-- The replacement text of the email-placeholder substitution. -/
def emailRepl : List Char := "[see original posting for email]".data

/-- Whether the email-placeholder pattern matches anywhere in the text. -/
def hasMatch : List Char → Bool
  | [] => false
  | c :: cs => (matchEmail (c :: cs)).isSome || hasMatch cs

/-- The re.sub of the email-placeholder pattern: leftmost non-overlapping
matches are replaced, scanning resumes after each replaced match. -/
def emailSub : List Char → List Char
  | [] => []
  | c :: cs =>
    match h : matchEmail (c :: cs) with
    | some rest => emailRepl ++ emailSub rest
    | none => c :: emailSub cs
termination_by l => l.length
decreasing_by
  · have key : ∀ (p l r : List Char), expectCI p l = some r → r.length + p.length = l.length := by
      intro p
      induction p with
      | nil =>
        intro l r hh
        simp [expectCI] at hh
        simp [hh]
      | cons a ps ih =>
        intro l r hh
        cases l with
        | nil => simp [expectCI] at hh
        | cons b bs =>
          simp only [expectCI] at hh
          split at hh
          · have := ih bs r hh
            simp only [List.length_cons]
            omega
          · exact absurd hh (by simp)
    have hdw : ∀ (p : Char → Bool) (l : List Char), (l.dropWhile p).length ≤ l.length := by
      intro p l
      induction l with
      | nil => simp [List.dropWhile]
      | cons a as ih =>
        simp only [List.dropWhile]
        split
        · simp only [List.length_cons]
          omega
        · simp
    simp only [matchEmail] at h
    rcases h1 : expectCI "[email".data (c :: cs) with _ | r1
    · rw [h1] at h; exact absurd h (by simp)
    · rw [h1] at h
      have e1 := key _ _ _ h1
      have e2 := key _ _ _ h
      have e3 := hdw pyIsSpace r1
      have l1 : ("[email".data).length = 6 := rfl
      have l2 : ("protected]".data).length = 10 := rfl
      rw [l1] at e1
      rw [l2] at e2
      simp only [List.length_cons] at e1 ⊢
      omega
  · simp

/-- Whether a character is a space or a tab (the regex class of line 90). -/
def isST (c : Char) : Bool := c = ' ' || c = '\t'

/-- The re.sub of two-or-more spaces-or-tabs by one space (line 90): a maximal
run of at least two is replaced by a single space, a lone character is kept. -/
def collapseSpaces : List Char → List Char
  | [] => []
  | c :: cs =>
    if isST c then
      match cs with
      | [] => [c]
      | d :: ds =>
        if isST d then ' ' :: collapseSpaces ((d :: ds).dropWhile isST)
        else c :: collapseSpaces (d :: ds)
    else c :: collapseSpaces cs
termination_by l => l.length
decreasing_by
  all_goals
    first
      | (simp only [List.length_cons]; omega)
      | (have hdw : ∀ (p : Char → Bool) (l : List Char), (l.dropWhile p).length ≤ l.length := by
           intro p l
           induction l with
           | nil => simp [List.dropWhile]
           | cons a as ih =>
             simp only [List.dropWhile]
             split
             · simp only [List.length_cons]
               omega
             · simp
         refine Nat.lt_of_le_of_lt (hdw _ _) ?_
         simp only [List.length_cons]
         omega)

/-- The re.sub of three-or-more newlines by exactly two (line 91): a maximal
run of at least three is replaced by two newlines, shorter runs are kept. -/
def collapseNl : List Char → List Char
  | [] => []
  | c :: cs =>
    if c = '\n' then
      match cs with
      | [] => [c]
      | d :: ds =>
        if d = '\n' then
          match ds with
          | [] => [c, d]
          | e :: es =>
            if e = '\n' then
              '\n' :: '\n' :: collapseNl ((d :: e :: es).dropWhile (fun x => x = '\n'))
            else c :: d :: collapseNl (e :: es)
        else c :: collapseNl (d :: ds)
    else c :: collapseNl cs
termination_by l => l.length
decreasing_by
  all_goals
    first
      | (simp only [List.length_cons]; omega)
      | (have hdw : ∀ (p : Char → Bool) (l : List Char), (l.dropWhile p).length ≤ l.length := by
           intro p l
           induction l with
           | nil => simp [List.dropWhile]
           | cons a as ih =>
             simp only [List.dropWhile]
             split
             · simp only [List.length_cons]
               omega
             · simp
         refine Nat.lt_of_le_of_lt (hdw _ _) ?_
         simp only [List.length_cons]
         omega)

/-- The final step of clean_text (line 92): split on newlines, strip every
line, rejoin with newlines. -/
def lineTrim (t : List Char) : List Char := joinNl ((splitOnNl t).map pyStrip)

/-- clean_text (scraper.py lines 78-92): the empty-input guard, the three
literal substitutions, the email-placeholder substitution, whitespace-run and
newline-run collapsing, per-line trimming and a final strip. -/
def clean_text (text : List Char) : List Char :=
  if text = [] then []
  else pyStrip (lineTrim (collapseNl (collapseSpaces (emailSub (fixArtifacts text)))))

/-- Hexadecimal digit value, as accepted by the Python int parser with base 16. -/
def hexVal (c : Char) : Option Nat :=
  if '0' ≤ c ∧ c ≤ '9' then some (c.toNat - '0'.toNat)
  else if 'a' ≤ c ∧ c ≤ 'f' then some (c.toNat - 'a'.toNat + 10)
  else if 'A' ≤ c ∧ c ≤ 'F' then some (c.toNat - 'A'.toNat + 10)
  else none

/-- Remaining digits of a hex numeral: further digits, optionally separated by
single underscores between digits (Python numeral grammar). -/
def goHex (acc : Nat) : List Char → Option Nat
  | [] => some acc
  | '_' :: c :: cs =>
    match hexVal c with
    | some v => goHex (acc * 16 + v) cs
    | none => none
  | '_' :: [] => none
  | c :: cs =>
    match hexVal c with
    | some v => goHex (acc * 16 + v) cs
    | none => none

/-- A non-empty run of hex digits with optional single underscores between. -/
def parseHexDigits : List Char → Option Nat
  | [] => none
  | c :: cs =>
    match hexVal c with
    | some v => goHex v cs
    | none => none

/-- Python int(s, 16) on the short slices the decoder feeds it: surrounding
blanks are stripped, an optional sign precedes the digits.  The 0x prefix form
is irrelevant here because every slice holds at most two characters. -/
def pyIntHex (s : List Char) : Option Int :=
  match pyStrip s with
  | '+' :: r => (parseHexDigits r).map (fun n => (n : Int))
  | '-' :: r => (parseHexDigits r).map (fun n => -(n : Int))
  | r => (parseHexDigits r).map (fun n => (n : Int))

/-- Bitwise xor of Python integers (two-complement on arbitrary precision). -/
def pyXor (a b : Int) : Int :=
  if 0 ≤ a then
    if 0 ≤ b then Int.ofNat (a.toNat ^^^ b.toNat)
    else -(Int.ofNat (a.toNat ^^^ (-b - 1).toNat)) - 1
  else
    if 0 ≤ b then -(Int.ofNat ((-a - 1).toNat ^^^ b.toNat)) - 1
    else Int.ofNat ((-a - 1).toNat ^^^ (-b - 1).toNat)

/-- Python chr: defined for code points 0 to 0x10FFFF, raises otherwise.  The
decoder only ever passes values between -511 and 511, so the surrogate range
is unreachable and Char.ofNat is exact on every reachable argument. -/
def pyChr (n : Int) : Option Char :=
  if 0 ≤ n ∧ n ≤ 1114111 then some (Char.ofNat n.toNat) else none

/-- The generator expression of decode_cf_email: two-character slices of the
remainder are parsed as hex, xored with the key and turned into characters;
any failure aborts the whole join (the caught ValueError or IndexError). -/
def decodeGroups (key : Int) : List Char → Option (List Char)
  | [] => some []
  | c :: cs =>
    match pyIntHex ((c :: cs).take 2) with
    | none => none
    | some v =>
      match pyChr (pyXor v key) with
      | none => none
      | some ch => (decodeGroups key ((c :: cs).drop 2)).map (fun r => ch :: r)
termination_by l => l.length
decreasing_by
  simp only [List.length_cons]
  cases cs <;> simp <;> omega

/-- decode_cf_email (scraper.py lines 95-102): first two characters are the
xor key, each later two-character slice decodes to one character; any parse or
chr failure is swallowed and yields the empty string. -/
def decode_cf_email (encoded : List Char) : List Char :=
  match pyIntHex (encoded.take 2) with
  | none => []
  | some key =>
    match decodeGroups key (encoded.drop 2) with
    | none => []
    | some cs => cs

/-- LOCATION_NAMES (scraper.py lines 34-46), in source order. -/
def LOCATION_NAMES : List (List Char × List Char) :=
  [("mogadishu".data, "Mogadishu".data), ("muqdisho".data, "Mogadishu".data),
   ("hargeisa".data, "Hargeisa".data), ("hargeysa".data, "Hargeisa".data),
   ("kismayo".data, "Kismayo".data), ("kismaayo".data, "Kismayo".data),
   ("baidoa".data, "Baidoa".data), ("baydhabo".data, "Baidoa".data),
   ("garowe".data, "Garowe".data), ("garoowe".data, "Garowe".data),
   ("bosaso".data, "Bosaso".data), ("boosaaso".data, "Bosaso".data),
   ("jowhar".data, "Jowhar".data), ("jawhar".data, "Jowhar".data),
   ("beledweyne".data, "Beledweyne".data), ("galkacayo".data, "Galkayo".data),
   ("galkayo".data, "Galkayo".data), ("berbera".data, "Berbera".data),
   ("burao".data, "Burao".data), ("burco".data, "Burao".data),
   ("beledhawa".data, "Beledhawa".data), ("sheekh".data, "Sheekh".data),
   ("jigjiga".data, "Jigjiga".data), ("nairobi".data, "Nairobi".data),
   ("djibouti".data, "Djibouti".data), ("somaliland".data, "Somaliland".data),
   ("puntland".data, "Puntland".data), ("somalia".data, "Somalia".data),
   ("somalia-and-somaliland".data, "Somalia & Somaliland".data),
   ("puntland-state-of-somalia".data, "Puntland, Somalia".data),
   ("mogadiscio".data, "Mogadishu".data)]

/-- COUNTRY_MAP (scraper.py lines 49-58), in source order. -/
def COUNTRY_MAP : List (List Char × List Char) :=
  [("mogadishu".data, "Somalia".data), ("hargeisa".data, "Somalia".data),
   ("kismayo".data, "Somalia".data), ("baidoa".data, "Somalia".data),
   ("garowe".data, "Somalia".data), ("bosaso".data, "Somalia".data),
   ("jowhar".data, "Somalia".data), ("beledweyne".data, "Somalia".data),
   ("galkayo".data, "Somalia".data), ("berbera".data, "Somalia".data),
   ("burao".data, "Somalia".data), ("somaliland".data, "Somalia".data),
   ("puntland".data, "Somalia".data), ("somalia".data, "Somalia".data),
   ("nairobi".data, "Kenya".data), ("mombasa".data, "Kenya".data),
   ("kenya".data, "Kenya".data), ("kampala".data, "Uganda".data),
   ("djibouti".data, "Djibouti".data), ("jigjiga".data, "Ethiopia".data),
   ("addis ababa".data, "Ethiopia".data)]

/-- Lookup in an association list by exact key (Python dict get). -/
def assocGet : List (List Char × List Char) → List Char → Option (List Char)
  | [], _ => none
  | (k, v) :: rest, key => if key = k then some v else assocGet rest key

/-- prettify_location (scraper.py lines 61-65): empty slug is kept empty, the
lowercased stripped slug is looked up in LOCATION_NAMES, otherwise hyphens
become spaces and the result is title-cased. -/
def prettify_location (slug : List Char) : List Char :=
  if slug = [] then []
  else
    match assocGet LOCATION_NAMES (pyStrip (pyLower slug)) with
    | some v => v
    | none => pyTitle (slug.map (fun c => if c = '-' then ' ' else c))

/-- First entry of the country table whose keyword occurs in the text. -/
def countryFind : List (List Char × List Char) → List Char → Option (List Char)
  | [], _ => none
  | (kw, country) :: rest, ll => if isSub kw ll then some country else countryFind rest ll

/-- detect_country (scraper.py lines 68-75): empty location falls back to
Somalia, otherwise the first COUNTRY_MAP keyword contained in the lowercased
location decides, with Somalia as the final fallback. -/
def detect_country (location : List Char) : List Char :=
  if location = [] then "Somalia".data
  else
    match countryFind COUNTRY_MAP (pyLower location) with
    | some c => c
    | none => "Somalia".data

/-- Fixed-width hexadecimal rendering of one code point. -/
def natHexDigit (n : Nat) : Char := if n < 10 then Char.ofNat ('0'.toNat + n) else Char.ofNat ('a'.toNat + n - 10)

/-- Modelled from the spec: job_uid is the md5 hex digest of the URL, a pure
deterministic content identifier; the hash itself is a library external to
src/, modelled here as an injective deterministic hex encoding of the URL. -/
def job_uid (url : List Char) : List Char :=
  url.flatMap (fun c => [natHexDigit (c.toNat / 1048576 % 16), natHexDigit (c.toNat / 65536 % 16),
                      natHexDigit (c.toNat / 4096 % 16), natHexDigit (c.toNat / 256 % 16),
                      natHexDigit (c.toNat / 16 % 16), natHexDigit (c.toNat % 16)])

/-- The in-memory state of the seen-jobs tracker: the dict from uid to the
last-seen ISO timestamp (scraper.py lines 138-167).  File loading and saving
are IO glue outside the embedding. -/
structure SeenTracker where
  seen : List (List Char × List Char)

/-- SeenTracker.is_seen (lines 159-160): dict key membership of the uid. -/
def SeenTracker.is_seen (t : SeenTracker) (url : List Char) : Bool :=
  (assocGet t.seen (job_uid url)).isSome

/-- SeenTracker.filter_new (lines 165-167): the list comprehension keeping the
urls that are not seen. -/
def SeenTracker.filter_new (t : SeenTracker) (urls : List (List Char)) : List (List Char) :=
  urls.filter (fun u => !(t.is_seen u))

/-- The job dict created at the top of scrape_job_page (lines 308-324). -/
structure Job where
  title : List Char
  organization : List Char
  location : List Char
  country : List Char
  description : List Char
  url : List Char
  deadline : List Char
  datePosted : List Char
  sector : List Char
  source : List Char
  type : List Char
  experience : List Char
  howToApply : List Char
  qualifications : List Char
  responsibilities : List Char
deriving DecidableEq, Repr

/-- The record fields reachable through the label vocabularies of the grid
parser and the body-text fallback. -/
inductive FieldName where
  | datePosted
  | deadline
  | sector
  | location
  | jobType
  | experience
deriving DecidableEq, Repr

/-- Dynamic field read, modelling job.get(field) for the vocabulary fields. -/
def Job.getF (j : Job) : FieldName → List Char
  | .datePosted => j.datePosted
  | .deadline => j.deadline
  | .sector => j.sector
  | .location => j.location
  | .jobType => j.type
  | .experience => j.experience

/-- Dynamic field write, modelling the job[field_name] = value assignment. -/
def Job.setF (j : Job) : FieldName → List Char → Job
  | .datePosted, v => { j with datePosted := v }
  | .deadline, v => { j with deadline := v }
  | .sector, v => { j with sector := v }
  | .location, v => { j with location := v }
  | .jobType, v => { j with type := v }
  | .experience, v => { j with experience := v }

/-- One parsed JSON-LD object, projected to the keys that Method 1 reads
(lines 331-345).  A parse failure of a whole script block simply contributes
no items, matching the swallowed JSONDecodeError. -/
structure LdItem where
  atType : List Char
  hasDatePostedKey : Bool
  title : List Char
  datePosted : List Char
  validThrough : List Char
  orgName : List Char
  addressLocality : List Char
  employmentType : List Char
deriving DecidableEq, Repr

/-- One h2 section of the page, carrying the results of the DOM sibling walks
that the embedding does not model: the text fragments collect_section would
gather, the candidate apply link next to the heading, and the sibling text
blocks the job-details grid parser would walk. -/
structure Section where
  heading : List Char
  fragments : List (List Char)
  applyHref : Option (List Char)
  gridBlocks : List (List Char)
deriving DecidableEq, Repr

/-- A parsed page, projected to the inputs scrape_job_page consumes: the
JSON-LD items per script tag, the three raw-HTML regex match results of
Method 2, the first h1 text, the company link texts, the h2 sections, the
visible body text, and the inline deadline regex match result on it. -/
structure Doc where
  ldScripts : List (List LdItem)
  rawOrg : Option (List Char)
  rawDatePosted : Option (List Char)
  rawValidThrough : Option (List Char)
  h1 : Option (List Char)
  companyLinks : List (List Char)
  sections : List Section
  bodyText : List Char
  inlineDeadlineMatch : Option (List Char)
deriving DecidableEq, Repr

/-- location_from_url (lines 448-450): the first path segment after /jobs/
that is non-empty and closed by a further slash, prettified; empty otherwise. -/
def locSeg : List Char → Option (List Char)
  | [] => none
  | c :: cs =>
    if startsL "/jobs/".data (c :: cs) then
      let rest := (c :: cs).drop 6
      let seg := rest.takeWhile (fun x => x ≠ '/')
      if seg ≠ [] ∧ (rest.drop seg.length).head? = some '/' then some seg
      else locSeg cs
    else locSeg cs

/-- location_from_url (lines 448-450). -/
def location_from_url (url : List Char) : List Char :=
  match locSeg url with
  | some s => prettify_location s
  | none => []

/-- The empty record built at lines 308-324, with location pre-seeded from
the URL and the source tag set. -/
def initJob (url : List Char) : Job :=
  { title := [], organization := [], location := location_from_url url, country := [],
    description := [], url := url, deadline := [], datePosted := [], sector := [],
    source := "somalijobs".data, type := [], experience := [], howToApply := [],
    qualifications := [], responsibilities := [] }

/-- The Method 1 body for one JSON-LD item (lines 332-345): fields are taken
when the item supplies a non-empty value, the employment type skipping the
Organization sentinel. -/
def m1Item (j : Job) (it : LdItem) : Job :=
  if it.atType = "JobPosting".data ∨ it.hasDatePostedKey then
    let j1 := { j with
      title := if it.title ≠ [] then it.title else j.title,
      datePosted := if it.datePosted ≠ [] then it.datePosted else j.datePosted,
      deadline := if it.validThrough ≠ [] then it.validThrough else j.deadline }
    let j2 := if it.orgName ≠ [] then { j1 with organization := it.orgName } else j1
    let j3 := if it.addressLocality ≠ [] then
        { j2 with location := prettify_location it.addressLocality } else j2
    if it.employmentType ≠ [] ∧ it.employmentType ≠ "Organization".data then
      { j3 with type := it.employmentType }
    else j3
  else j

/-- Method 1 (lines 327-347): the JSON-LD scripts in document order, items in
order inside each script; later matching items overwrite earlier ones. -/
def method1 (scripts : List (List LdItem)) (j : Job) : Job :=
  scripts.foldl (fun acc items => items.foldl m1Item acc) j

/-- Method 2 (lines 349-361): raw-HTML regex fallbacks, each used only when
the field is still empty. -/
def method2 (doc : Doc) (j : Job) : Job :=
  let j1 := if j.organization = [] then
      match doc.rawOrg with
      | some v => { j with organization := v }
      | none => j
    else j
  let j2 := if j1.datePosted = [] then
      match doc.rawDatePosted with
      | some v => { j1 with datePosted := v }
      | none => j1
    else j1
  if j2.deadline = [] then
    match doc.rawValidThrough with
    | some v => { j2 with deadline := v }
    | none => j2
  else j2

/-- Method 3 (lines 363-366): the h1 heading text replaces the title whenever
an h1 element exists, with no emptiness check on the current title. -/
def method3 (doc : Doc) (j : Job) : Job :=
  match doc.h1 with
  | some t => { j with title := clean_text (pyStrip t) }
  | none => j

/-- First company link whose stripped text passes the checks of lines 370-374. -/
def findCompany : List (List Char) → Option (List Char)
  | [] => none
  | t :: ts =>
    let x := pyStrip t
    if x ≠ [] ∧ x.length > 1 ∧ isSub "See company".data x = false then some x
    else findCompany ts

/-- Method 4 (lines 369-374): company-link organization fallback, only when
the organization is still empty. -/
def method4 (doc : Doc) (j : Job) : Job :=
  if j.organization = [] then
    match findCompany doc.companyLinks with
    | some t => { j with organization := t }
    | none => j
  else j

/-- collect_section (lines 453-471) applied to the collected sibling texts:
join with newlines, strip, cap at 2000 characters, clean.  The sibling walk
with its stop and skip rules is DOM logic whose surviving fragments are the
input here. -/
def collect_section (fragments : List (List Char)) : List Char :=
  clean_text ((pyStrip (joinNl fragments)).take 2000)

/-- The label vocabulary of parse_job_details_section (lines 490-497), in
source order. -/
def gridLabelMap : List (List Char × FieldName) :=
  [("posted date".data, .datePosted), ("posted".data, .datePosted),
   ("expire date".data, .deadline), ("expire".data, .deadline),
   ("deadline".data, .deadline), ("closing date".data, .deadline),
   ("category".data, .sector), ("location".data, .location),
   ("job type".data, .jobType), ("employment type".data, .jobType),
   ("experience level".data, .experience), ("experience".data, .experience)]

/-- First label of the grid vocabulary equal to the line, allowing an optional
trailing colon; the break on first match of lines 501-510. -/
def gridLabelFind : List (List Char × FieldName) → List Char → Option FieldName
  | [], _ => none
  | (k, f) :: rest, s => if s = k ∨ s = k ++ [':'] then some f else gridLabelFind rest s

/-- The transformation applied to an accepted grid value (lines 506-509):
locations are prettified, everything else is stored as is. -/
def gridXform (f : FieldName) (v : List Char) : List Char :=
  if f = FieldName.location then prettify_location v else v

/-- One iteration of the label-scan loop of parse_job_details_section (lines
499-510): prev is the preceding line when the index is positive.  The value is
accepted when non-empty and under 100 characters; there is no check that the
target field is still unset. -/
def gridStep (prev : Option (List Char)) (l : List Char) (j : Job) : Job :=
  match gridLabelFind gridLabelMap (pyStrip (pyLower l)) with
  | none => j
  | some f =>
    match prev with
    | none => j
    | some p =>
      let v := pyStrip p
      if v ≠ [] ∧ v.length < 100 then j.setF f (gridXform f v) else j

/-- The indexed loop of lines 499-510, carried out with the previous line as
explicit state. -/
def gridGo : Option (List Char) → List (List Char) → Job → Job
  | _, [], j => j
  | prev, l :: ls, j => gridGo (some l) ls (gridStep prev l j)

/-- The label-scan loop of parse_job_details_section over a collected line
sequence. -/
def gridLoop (lines : List (List Char)) (j : Job) : Job := gridGo none lines j

/-- The line collection of parse_job_details_section (lines 476-488): every
sibling text block is stripped, split on newlines, and the stripped non-empty
lines are kept in order. -/
def collectGridLines (blocks : List (List Char)) : List (List Char) :=
  blocks.flatMap (fun t => ((splitOnNl (pyStrip t)).map pyStrip).filter (fun l => l ≠ []))

/-- parse_job_details_section (lines 474-510) applied to the sibling text
blocks the DOM walk would deliver. -/
def parse_job_details_section (blocks : List (List Char)) (j : Job) : Job :=
  gridLoop (collectGridLines blocks) j

/-- One h2 section of Method 5 (lines 377-396): the elif routing over the
lowercased stripped heading, with the apply-link append and the job-details
grid branch. -/
def sectionStep (j : Job) (s : Section) : Job :=
  let heading := pyLower (pyStrip s.heading)
  let content := collect_section s.fragments
  if isSub "job description".data heading ∨ heading = "description".data then
    { j with description := content }
  else if isSub "skills".data heading ∨ isSub "qualifications".data heading ∨
      isSub "requirements".data heading then
    { j with qualifications := content }
  else if isSub "responsibilities".data heading ∨ isSub "duties".data heading then
    { j with responsibilities := content }
  else if isSub "how to apply".data heading ∨ isSub "application".data heading then
    let j1 := { j with howToApply := content }
    match s.applyHref with
    | some href =>
      if isSub "somalijobs.com".data href = false then
        { j1 with howToApply := j1.howToApply ++ ("\n\nApply at: ".data ++ href) }
      else j1
    | none => j1
  else if isSub "job details".data heading then
    parse_job_details_section s.gridBlocks j
  else j

/-- Method 5 (lines 377-396): all h2 sections in document order. -/
def sectionsPass (ss : List Section) (j : Job) : Job := ss.foldl sectionStep j

/-- The label vocabulary of the body-text fallback (lines 401-406), in source
order. -/
def bodyLabelMap : List (List Char × FieldName) :=
  [("posted date".data, .datePosted), ("expire date".data, .deadline),
   ("deadline".data, .deadline), ("closing date".data, .deadline),
   ("category".data, .sector), ("location".data, .location),
   ("job type".data, .jobType), ("experience level".data, .experience)]

/-- First label of the body vocabulary equal to the line (exact match, no
colon variant here), the break of line 417. -/
def bodyLabelFind : List (List Char × FieldName) → List Char → Option FieldName
  | [], _ => none
  | (k, f) :: rest, s => if s = k then some f else bodyLabelFind rest s

/-- One iteration of the body-text value-above-label loop (lines 407-417):
unlike the grid parser, the write is guarded by the field being still unset. -/
def bodyStep (prev l : List Char) (j : Job) : Job :=
  match bodyLabelFind bodyLabelMap (pyLower l) with
  | none => j
  | some f =>
    if prev ≠ [] ∧ prev.length < 100 ∧ j.getF f = [] then
      j.setF f (if f = FieldName.location then prettify_location prev else prev)
    else j

/-- The indexed loop of lines 407-417 starting at index one, with the
previous line as explicit state. -/
def bodyGo : List Char → List (List Char) → Job → Job
  | _, [], j => j
  | prev, l :: ls, j => bodyGo l ls (bodyStep prev l j)

/-- body_lines (line 400): stripped non-empty lines of the visible body text. -/
def bodyLines (t : List Char) : List (List Char) :=
  ((splitOnNl t).map pyStrip).filter (fun l => l ≠ [])

/-- The body-text value-above-label fallback (lines 398-417). -/
def bodyScanPass (doc : Doc) (j : Job) : Job :=
  match bodyLines doc.bodyText with
  | [] => j
  | l :: ls => bodyGo l ls j

/-- The inline deadline regex fallback (lines 419-423): the match result on
the body text is an input, stripped and stored only when the deadline is
still empty. -/
def inlineDeadlinePass (doc : Doc) (j : Job) : Job :=
  if j.deadline = [] then
    match doc.inlineDeadlineMatch with
    | some v => { j with deadline := pyStrip v }
    | none => j
  else j

/-- The description blob of lines 425-430: description, then qualifications
under its marker, then responsibilities under its marker. -/
def buildFull (d q r : List Char) : List Char :=
  let f1 := if q ≠ [] then d ++ ("\n\n=== Skills & Qualifications ===\n".data ++ q) else d
  if r ≠ [] then f1 ++ ("\n\n=== Responsibilities ===\n".data ++ r) else f1

/-- The description assembly of lines 425-431: concatenate, strip, truncate
to 3000 characters, then clean. -/
def assembleDescription (d q r : List Char) : List Char :=
  clean_text ((pyStrip (buildFull d q r)).take 3000)

/-- Lines 425-431 applied to the record. -/
def combineDesc (j : Job) : Job :=
  { j with description := assembleDescription j.description j.qualifications j.responsibilities }

/-- The employment-type fix of lines 433-435: empty or the Organization
sentinel becomes Full Time. -/
def typeFix (j : Job) : Job :=
  if j.type = [] ∨ j.type = "Organization".data then { j with type := "Full Time".data } else j

/-- Line 438: the country is inferred from the location. -/
def setCountry (j : Job) : Job := { j with country := detect_country j.location }

/-- The final cleaning loop of lines 441-443 over its eight keys. -/
def cleanFields (j : Job) : Job :=
  { j with
    title := clean_text j.title,
    organization := clean_text j.organization,
    description := clean_text j.description,
    qualifications := clean_text j.qualifications,
    responsibilities := clean_text j.responsibilities,
    howToApply := clean_text j.howToApply,
    sector := clean_text j.sector,
    experience := clean_text j.experience }

/-- scrape_job_page (lines 297-445) on a fetched and parsed page: the five
extraction methods in order, the body-text and inline fallbacks, description
assembly, type defaulting, country inference and final cleaning. -/
def scrape_job_page (doc : Doc) (url : List Char) : Job :=
  cleanFields (setCountry (typeFix (combineDesc (inlineDeadlinePass doc
    (bodyScanPass doc (sectionsPass doc.sections (method4 doc (method3 doc
      (method2 doc (method1 doc.ldScripts (initJob url)))))))))))

/-- Whether two adjacent space-or-tab characters occur anywhere (the condition
under which the whitespace-collapsing substitution fires). -/
def hasSTRun : List Char → Bool
  | [] => false
  | [_] => false
  | a :: b :: t => (isST a && isST b) || hasSTRun (b :: t)

/-- A character that can never occur inside an input accepted by the Python
hex int parser: not a hex digit, not a blank, not a sign, not an underscore. -/
def badHexChar (c : Char) : Bool :=
  !((hexVal c).isSome || pyIsSpace c || c = '+' || c = '-' || c = '_')

/-- Concrete JSON-LD item used by the C1 counterexample document. -/
def itemC1 : LdItem :=
  { atType := "JobPosting".data, hasDatePostedKey := false, title := "Program Officer".data,
    datePosted := "2025-01-01".data, validThrough := "2025-02-01".data,
    orgName := "Example Org".data, addressLocality := "Hargeisa".data,
    employmentType := "Full-time".data }

/-- Document with both a structured-data title and a conflicting h1 heading. -/
def docC1 : Doc :=
  { ldScripts := [[itemC1]], rawOrg := none, rawDatePosted := none, rawValidThrough := none,
    h1 := some "Driver".data, companyLinks := [], sections := [], bodyText := [],
    inlineDeadlineMatch := none }

/-- Document with structured data only and no h1, used by the C1 witness. -/
def docC1w : Doc :=
  { ldScripts := [[itemC1]], rawOrg := none, rawDatePosted := none, rawValidThrough := none,
    h1 := none, companyLinks := [], sections := [], bodyText := [],
    inlineDeadlineMatch := none }

/-- Record with a deadline already set, used by the C2 counterexample. -/
def jobC2 : Job :=
  { initJob "u".data with deadline := "2025-01-01".data }

/-- JSON-LD item whose employment type is the bad Organization sentinel. -/
def itemC9 : LdItem :=
  { atType := "JobPosting".data, hasDatePostedKey := false, title := "T".data,
    datePosted := [], validThrough := [], orgName := [], addressLocality := [],
    employmentType := "Organization".data }

/-- Document whose structured data reports employment type Organization. -/
def docC9 : Doc :=
  { ldScripts := [[itemC9]], rawOrg := none, rawDatePosted := none, rawValidThrough := none,
    h1 := none, companyLinks := [], sections := [], bodyText := [],
    inlineDeadlineMatch := none }

/-- Propositional relation between two strings that share the same sequence of
non-whitespace characters, with whitespace segments at matching positions that
are empty on one side exactly when empty on the other.  The whitespace-editing
stages of clean_text relate their input and output in this sense. -/
inductive WsEq : List Char → List Char → Prop
  | nil : WsEq [] []
  | ch {x y : List Char} (c : Char) (hc : pyIsSpace c = false) :
      WsEq x y → WsEq (c :: x) (c :: y)
  | run {x y : List Char} (w₁ w₂ : List Char)
      (h₁ : ∀ c ∈ w₁, pyIsSpace c = true) (h₂ : ∀ c ∈ w₂, pyIsSpace c = true)
      (hne : w₁ = [] ↔ w₂ = []) : WsEq x y → WsEq (w₁ ++ x) (w₂ ++ y)

/-! Helper lemmas. -/

theorem lenDropWhile (p : Char → Bool) (l : List Char) : (l.dropWhile p).length ≤ l.length := by
  induction l with
  | nil => simp [List.dropWhile]
  | cons a as ih =>
    simp only [List.dropWhile]
    split
    · simp only [List.length_cons]
      omega
    · simp

theorem lenPyRStrip (l : List Char) : (pyRStrip l).length ≤ l.length := by
  unfold pyRStrip
  rw [List.length_reverse]
  calc (l.reverse.dropWhile pyIsSpace).length ≤ l.reverse.length := lenDropWhile _ _
    _ = l.length := List.length_reverse l

theorem lenPyStrip (l : List Char) : (pyStrip l).length ≤ l.length := by
  unfold pyStrip pyLStrip
  calc ((pyRStrip l).dropWhile pyIsSpace).length ≤ (pyRStrip l).length := lenDropWhile _ _
    _ ≤ l.length := lenPyRStrip l

theorem lenFixArtifacts (t : List Char) : (fixArtifacts t).length ≤ t.length := by
  unfold fixArtifacts
  rw [List.length_map]
  calc ((t.map fixNbsp).filter (fun c => c ≠ 'Â')).length ≤ (t.map fixNbsp).length :=
      List.length_filter_le _ _
    _ = t.length := List.length_map _ _

theorem expectCI_len (p : List Char) : ∀ (l r : List Char),
    expectCI p l = some r → r.length + p.length = l.length := by
  induction p with
  | nil =>
    intro l r hh
    simp [expectCI] at hh
    simp [hh]
  | cons a ps ih =>
    intro l r hh
    cases l with
    | nil => simp [expectCI] at hh
    | cons b bs =>
      simp only [expectCI] at hh
      split at hh
      · have := ih bs r hh
        simp only [List.length_cons]
        omega
      · exact absurd hh (by simp)

theorem emailSub_id : ∀ (l : List Char), hasMatch l = false → emailSub l = l := by
  intro l
  induction l with
  | nil => intro h; rw [emailSub]
  | cons c cs ih =>
    intro h
    rw [hasMatch] at h
    simp only [Bool.or_eq_false_iff] at h
    obtain ⟨h1, h2⟩ := h
    have hm : matchEmail (c :: cs) = none := by
      cases hm2 : matchEmail (c :: cs)
      · rfl
      · rw [hm2] at h1; simp at h1
    rw [emailSub]
    split
    · rename_i rest heq
      rw [hm] at heq
      exact absurd heq (by simp)
    · rw [ih h2]

theorem lenCollapseSpacesAux : ∀ (n : Nat) (l : List Char), l.length ≤ n →
    (collapseSpaces l).length ≤ l.length := by
  intro n
  induction n with
  | zero =>
    intro l hl
    cases l with
    | nil => simp [collapseSpaces.eq_def]
    | cons c cs => simp at hl
  | succ n ih =>
    intro l hl
    cases l with
    | nil => simp [collapseSpaces.eq_def]
    | cons c cs =>
      rw [collapseSpaces.eq_def]
      dsimp only
      split
      · split
        · simp
        · rename_i d ds
          split
          · simp only [List.length_cons] at hl ⊢
            have h1 : ((d :: ds).dropWhile isST).length ≤ (d :: ds).length := lenDropWhile _ _
            have h2 := ih ((d :: ds).dropWhile isST) (by simp only [List.length_cons] at h1 ⊢; omega)
            simp only [List.length_cons] at h1 h2
            omega
          · simp only [List.length_cons] at hl ⊢
            have h2 := ih (d :: ds) (by simp only [List.length_cons]; omega)
            simp only [List.length_cons] at h2
            omega
      · simp only [List.length_cons] at hl ⊢
        have h2 := ih cs (by omega)
        omega

theorem lenCollapseSpaces (l : List Char) : (collapseSpaces l).length ≤ l.length :=
  lenCollapseSpacesAux l.length l (le_refl _)

theorem lenCollapseNlAux : ∀ (n : Nat) (l : List Char), l.length ≤ n →
    (collapseNl l).length ≤ l.length := by
  intro n
  induction n with
  | zero =>
    intro l hl
    cases l with
    | nil => simp [collapseNl.eq_def]
    | cons c cs => simp at hl
  | succ n ih =>
    intro l hl
    cases l with
    | nil => simp [collapseNl.eq_def]
    | cons c cs =>
      rw [collapseNl.eq_def]
      dsimp only
      split
      · split
        · simp
        · rename_i d ds
          split
          · split
            · simp
            · rename_i e es
              split
              · rename_i hdEq dsTail heEq
                simp only [List.length_cons] at hl ⊢
                have hdw2 : (d :: e :: es).dropWhile (fun x => x = '\n') =
                    es.dropWhile (fun x => x = '\n') := by
                  simp [List.dropWhile, hdEq, heEq]
                rw [hdw2]
                have h1 : (es.dropWhile (fun x => x = '\n')).length ≤ es.length :=
                  lenDropWhile _ _
                have h2 := ih (es.dropWhile (fun x => x = '\n')) (by omega)
                omega
              · simp only [List.length_cons] at hl ⊢
                have h2 := ih (e :: es) (by simp only [List.length_cons]; omega)
                simp only [List.length_cons] at h2
                omega
          · simp only [List.length_cons] at hl ⊢
            have h2 := ih (d :: ds) (by simp only [List.length_cons]; omega)
            simp only [List.length_cons] at h2
            omega
      · simp only [List.length_cons] at hl ⊢
        have h2 := ih cs (by omega)
        omega

theorem lenCollapseNl (l : List Char) : (collapseNl l).length ≤ l.length :=
  lenCollapseNlAux l.length l (le_refl _)

theorem splitOnNl_ne_nil : ∀ (t : List Char), splitOnNl t ≠ [] := by
  intro t
  cases t with
  | nil => simp [splitOnNl]
  | cons c cs =>
    rw [splitOnNl]
    split
    · simp
    · split <;> simp

theorem joinNl_splitOnNl : ∀ (t : List Char), joinNl (splitOnNl t) = t := by
  intro t
  induction t with
  | nil => rfl
  | cons c cs ih =>
    rw [splitOnNl]
    split
    · rename_i hc
      cases hS : splitOnNl cs with
      | nil => exact absurd hS (splitOnNl_ne_nil cs)
      | cons s ss =>
        rw [hS] at ih
        rw [joinNl]
        simp only [List.nil_append]
        rw [ih, hc]
    · cases hS : splitOnNl cs with
      | nil => exact absurd hS (splitOnNl_ne_nil cs)
      | cons s ss =>
        rw [hS] at ih
        cases ss with
        | nil =>
          rw [joinNl] at ih ⊢
          rw [ih]
        | cons u us =>
          rw [joinNl] at ih ⊢
          rw [List.cons_append, ih]

theorem lenJoinMapStrip : ∀ (L : List (List Char)),
    (joinNl (L.map pyStrip)).length ≤ (joinNl L).length := by
  intro L
  induction L with
  | nil => simp [joinNl]
  | cons x xs ih =>
    cases xs with
    | nil =>
      simp only [List.map_cons, List.map_nil, joinNl]
      exact lenPyStrip x
    | cons y ys =>
      simp only [List.map_cons, joinNl, List.length_append, List.length_cons]
      simp only [List.map_cons] at ih
      have := lenPyStrip x
      omega

theorem lenLineTrim (t : List Char) : (lineTrim t).length ≤ t.length := by
  unfold lineTrim
  calc (joinNl ((splitOnNl t).map pyStrip)).length ≤ (joinNl (splitOnNl t)).length :=
      lenJoinMapStrip _
    _ = t.length := by rw [joinNl_splitOnNl]

theorem clean_text_len (t : List Char) (h : hasMatch (fixArtifacts t) = false) :
    (clean_text t).length ≤ t.length := by
  unfold clean_text
  split
  · simp
  · rw [emailSub_id _ h]
    calc (pyStrip (lineTrim (collapseNl (collapseSpaces (fixArtifacts t))))).length
        ≤ (lineTrim (collapseNl (collapseSpaces (fixArtifacts t)))).length := lenPyStrip _
      _ ≤ (collapseNl (collapseSpaces (fixArtifacts t))).length := lenLineTrim _
      _ ≤ (collapseSpaces (fixArtifacts t)).length := lenCollapseNl _
      _ ≤ (fixArtifacts t).length := lenCollapseSpaces _
      _ ≤ t.length := lenFixArtifacts t

/-! Claim C4: length behaviour of the Text Normalizer. -/

unseal emailSub collapseSpaces collapseNl in
/-- C4 counterexample: clean_text applied to the 17-character email
placeholder returns the 32-character replacement notice, so the normalizer
can increase string length, refuting the claim as stated. -/
theorem c4_counterexample :
    ("[email protected]".data).length = 17 ∧
    (clean_text "[email protected]".data).length = 32 := by
  constructor <;> decide

/-- C4 amended: the Text Normalizer never increases string length provided
the artifact-substituted input contains no match of the email-placeholder
pattern; that substitution is the one replacement with a longer output. -/
theorem c4_amended (x : List Char) (h : hasMatch (fixArtifacts x) = false) :
    (clean_text x).length ≤ x.length :=
  clean_text_len x h

/-- C4 witness: a concrete placeholder-free input on which the amended bound
is instantiated. -/
theorem c4_witness :
    hasMatch (fixArtifacts "hello  world".data) = false ∧
    (clean_text "hello  world".data).length ≤ ("hello  world".data).length :=
  ⟨by decide, c4_amended "hello  world".data (by decide)⟩

/-! Claim C5: idempotence and totality of the Text Normalizer. -/

unseal emailSub collapseSpaces collapseNl in
/-- C5 counterexample: on the input a, newline, blank line, blank line, b the
first pass trims the blank lines and thereby creates a run of three newlines,
which a second pass collapses; clean_text is therefore not idempotent. -/
theorem c5_counterexample :
    clean_text (clean_text "a\n \n \nb".data) ≠ clean_text "a\n \n \nb".data := by
  decide

/-- C5 amended: clean_text is a total function of the input string and maps
the empty string to the empty string; idempotence fails in general. -/
theorem c5_amended : clean_text [] = [] := rfl

/-! Lemmas about the email-placeholder pattern. -/

theorem expectCI_refl_append : ∀ (p t : List Char), expectCI p (p ++ t) = some t := by
  intro p
  induction p with
  | nil => intro t; rfl
  | cons a ps ih =>
    intro t
    simp only [List.cons_append, expectCI]
    rw [if_pos (by simp [lowEq])]
    exact ih t

theorem matchEmail_protEmail (t : List Char) :
    matchEmail ("[email protected]".data ++ t) = some t := by
  have h0 : "[email protected]".data ++ t = "[email".data ++ ((' ' :: "protected]".data) ++ t) := by
    have h1 : "[email protected]".data = "[email".data ++ (' ' :: "protected]".data) := by decide
    rw [h1, List.append_assoc]
  unfold matchEmail
  rw [h0, expectCI_refl_append]
  have hsp : pyIsSpace ' ' = true := by decide
  have hp : pyIsSpace 'p' = false := by decide
  have h2 : ((' ' :: "protected]".data) ++ t).dropWhile pyIsSpace = "protected]".data ++ t := by
    rw [show (' ' :: "protected]".data) ++ t = ' ' :: ('p' :: ("rotected]".data ++ t)) from rfl]
    simp only [List.dropWhile, hsp, hp]
    rfl
  dsimp only
  rw [h2]
  exact expectCI_refl_append _ t

theorem matchEmail_a (t : List Char) : matchEmail ('a' :: t) = none := by
  have h1 : expectCI "[email".data ('a' :: t) = none := by
    rw [show "[email".data = '[' :: "email".data from rfl]
    simp only [expectCI]
    rw [if_neg (by decide)]
  unfold matchEmail
  rw [h1]

theorem hasMatch_repl_a : ∀ (n : Nat), hasMatch (List.replicate n 'a') = false := by
  intro n
  induction n with
  | zero => rfl
  | succ n ih =>
    rw [List.replicate_succ, hasMatch, matchEmail_a]
    simpa using ih

theorem hasSTRun_cons_nonST (c : Char) (l : List Char) (h : isST c = false) :
    hasSTRun (c :: l) = hasSTRun l := by
  cases l with
  | nil => rfl
  | cons d ds => simp [hasSTRun, h]

theorem hasSTRun_repl_a : ∀ (n : Nat), hasSTRun (List.replicate n 'a') = false := by
  intro n
  induction n with
  | zero => rfl
  | succ n ih => rw [List.replicate_succ, hasSTRun_cons_nonST _ _ (by decide), ih]

theorem hasSTRun_tail (c : Char) (l : List Char) (h : hasSTRun (c :: l) = false) :
    hasSTRun l = false := by
  cases l with
  | nil => rfl
  | cons d ds =>
    rw [show hasSTRun (c :: d :: ds) = ((isST c && isST d) || hasSTRun (d :: ds)) from rfl] at h
    simp only [Bool.or_eq_false_iff] at h
    exact h.2

theorem hasSTRun_append_repl : ∀ (xs : List Char) (n : Nat), hasSTRun xs = false →
    hasSTRun (xs ++ List.replicate n 'a') = false := by
  intro xs
  induction xs with
  | nil => intro n _; simpa using hasSTRun_repl_a n
  | cons x xs ih =>
    intro n h
    cases xs with
    | nil =>
      simp only [List.cons_append, List.nil_append]
      cases n with
      | zero => simpa using h
      | succ m =>
        rw [List.replicate_succ]
        rw [show hasSTRun (x :: 'a' :: List.replicate m 'a') =
            ((isST x && isST 'a') || hasSTRun ('a' :: List.replicate m 'a')) from rfl]
        rw [← List.replicate_succ]
        rw [hasSTRun_repl_a (m + 1)]
        simp [show isST 'a' = false from by decide]
    | cons y ys =>
      simp only [List.cons_append]
      rw [show hasSTRun (x :: y :: (ys ++ List.replicate n 'a')) =
          ((isST x && isST y) || hasSTRun (y :: (ys ++ List.replicate n 'a'))) from rfl]
      rw [show hasSTRun (x :: y :: ys) = ((isST x && isST y) || hasSTRun (y :: ys)) from rfl] at h
      simp only [Bool.or_eq_false_iff] at h
      have h2 := ih n h.2
      simp only [List.cons_append] at h2
      rw [h.1, h2]
      rfl

theorem fixArtifacts_id : ∀ (l : List Char),
    (∀ c ∈ l, c ≠ '\xa0' ∧ c ≠ 'Â' ∧ c ≠ '·') → fixArtifacts l = l := by
  intro l h
  induction l with
  | nil => rfl
  | cons c cs ih =>
    have hc := h c (by simp)
    have hcs : ∀ d ∈ cs, d ≠ '\xa0' ∧ d ≠ 'Â' ∧ d ≠ '·' := fun d hd => h d (by simp [hd])
    have ih2 := ih hcs
    unfold fixArtifacts at ih2 ⊢
    simp only [List.map_cons, List.filter_cons]
    rw [show fixNbsp c = c from by simp [fixNbsp, hc.1]]
    rw [if_pos (by simp [hc.2.1])]
    simp only [List.map_cons]
    rw [show fixDot c = c from by simp [fixDot, hc.2.2]]
    rw [ih2]

theorem collapseSpaces_noRun : ∀ (l : List Char), hasSTRun l = false → collapseSpaces l = l := by
  intro l
  induction l with
  | nil => intro h; simp [collapseSpaces.eq_def]
  | cons c cs ih =>
    intro h
    rw [collapseSpaces.eq_def]
    dsimp only
    split
    · rename_i hST
      split
      · rfl
      · rename_i d ds
        have hd : isST d = false := by
          rw [show hasSTRun (c :: d :: ds) = ((isST c && isST d) || hasSTRun (d :: ds)) from rfl] at h
          simp only [Bool.or_eq_false_iff] at h
          cases hId : isST d
          · rfl
          · rw [hST, hId] at h
            simp at h
        rw [if_neg (by simp [hd])]
        rw [ih (hasSTRun_tail c _ h)]
    · rw [ih (hasSTRun_tail c _ h)]

theorem collapseNl_noNl : ∀ (l : List Char), '\n' ∉ l → collapseNl l = l := by
  intro l
  induction l with
  | nil => intro _; simp [collapseNl.eq_def]
  | cons c cs ih =>
    intro h
    have hc : ¬(c = '\n') := fun he => h (by simp [he])
    have hcs : '\n' ∉ cs := fun hm => h (by simp [hm])
    rw [collapseNl.eq_def]
    dsimp only
    rw [if_neg hc]
    rw [ih hcs]

theorem splitOnNl_noNl : ∀ (l : List Char), '\n' ∉ l → splitOnNl l = [l] := by
  intro l
  induction l with
  | nil => intro _; rfl
  | cons c cs ih =>
    intro h
    have hc : ¬(c = '\n') := fun he => h (by simp [he])
    have hcs : '\n' ∉ cs := fun hm => h (by simp [hm])
    rw [splitOnNl]
    rw [if_neg hc, ih hcs]

theorem pyLStrip_cons_id (c : Char) (l : List Char) (h : pyIsSpace c = false) :
    pyLStrip (c :: l) = c :: l := by
  simp [pyLStrip, List.dropWhile, h]

theorem pyRStrip_append_id (l : List Char) (c : Char) (h : pyIsSpace c = false) :
    pyRStrip (l ++ [c]) = l ++ [c] := by
  unfold pyRStrip
  rw [List.reverse_append]
  simp only [List.reverse_cons, List.reverse_nil, List.nil_append, List.cons_append]
  simp only [List.dropWhile, h]
  simp

theorem lenEmailRepl : emailRepl.length = 32 := by decide

theorem pyStrip_headLast (c d : Char) (l : List Char)
    (hc : pyIsSpace c = false) (hd : pyIsSpace d = false) :
    pyStrip (c :: l ++ [d]) = c :: l ++ [d] := by
  unfold pyStrip
  rw [show c :: l ++ [d] = (c :: l) ++ [d] from rfl]
  rw [pyRStrip_append_id _ _ hd]
  rw [show (c :: l) ++ [d] = c :: (l ++ [d]) from rfl]
  exact pyLStrip_cons_id _ _ hc

/-! Lemmas for claim C6. -/

theorem mem_or_dropped (p : Char → Bool) : ∀ (l : List Char) (c : Char),
    c ∈ l → c ∈ l.dropWhile p ∨ p c = true := by
  intro l
  induction l with
  | nil => intro c hc; simp at hc
  | cons a as ih =>
    intro c hc
    by_cases hp : p a = true
    · rw [List.dropWhile_cons_of_pos hp]
      rcases List.mem_cons.mp hc with h1 | h2
      · right; rw [h1]; exact hp
      · exact ih c h2
    · rw [List.dropWhile_cons_of_neg hp]
      left; exact hc

theorem mem_pyStrip (s : List Char) (c : Char) (hc : c ∈ s) (hw : pyIsSpace c = false) :
    c ∈ pyStrip s := by
  have h1 : c ∈ pyRStrip s := by
    unfold pyRStrip
    rw [List.mem_reverse]
    rcases mem_or_dropped pyIsSpace s.reverse c (List.mem_reverse.mpr hc) with h | h
    · exact h
    · rw [hw] at h; exact absurd h (by simp)
  unfold pyStrip pyLStrip
  rcases mem_or_dropped pyIsSpace (pyRStrip s) c h1 with h | h
  · exact h
  · rw [hw] at h; exact absurd h (by simp)

theorem badHexChar_parts (c : Char) (hb : badHexChar c = true) :
    hexVal c = none ∧ pyIsSpace c = false ∧ c ≠ '+' ∧ c ≠ '-' ∧ c ≠ '_' := by
  unfold badHexChar at hb
  simp only [Bool.not_eq_true', Bool.or_eq_false_iff] at hb
  obtain ⟨⟨⟨⟨h1, h2⟩, h3⟩, h4⟩, h5⟩ := hb
  refine ⟨?_, h2, by simpa using h3, by simpa using h4, by simpa using h5⟩
  cases hv : hexVal c
  · rfl
  · rw [hv] at h1; simp at h1

theorem goHex_bad : ∀ (n : Nat) (l : List Char) (acc : Nat) (c : Char), l.length ≤ n →
    c ∈ l → badHexChar c = true → goHex acc l = none := by
  intro n
  induction n with
  | zero =>
    intro l acc c hl hc _
    cases l with
    | nil => simp at hc
    | cons d ds => simp at hl
  | succ n ih =>
    intro l acc c hl hc hb
    obtain ⟨hhex, hws, hplus, hminus, hund⟩ := badHexChar_parts c hb
    rw [goHex.eq_def]
    split
    · simp at hc
    · rename_i d cs
      rcases List.mem_cons.mp hc with h1 | h2
      · exact absurd h1 hund
      · rcases List.mem_cons.mp h2 with h3 | h4
        · rw [← h3, hhex]
        · split
          · simp only [List.length_cons] at hl
            exact ih cs _ c (by omega) h4 hb
          · rfl
    · rename_i h1
      rcases List.mem_cons.mp hc with h2 | h3
      · exact absurd h2 hund
      · simp at h3
    · rename_i d cs hne1 hne2
      rcases List.mem_cons.mp hc with h1 | h2
      · rw [← h1, hhex]
      · split
        · simp only [List.length_cons] at hl
          exact ih cs _ c (by omega) h2 hb
        · rfl

theorem parseHexDigits_bad (l : List Char) (c : Char) (hc : c ∈ l)
    (hb : badHexChar c = true) : parseHexDigits l = none := by
  obtain ⟨hhex, _, _, _, _⟩ := badHexChar_parts c hb
  cases l with
  | nil => rfl
  | cons d ds =>
    rw [parseHexDigits]
    rcases List.mem_cons.mp hc with h1 | h2
    · rw [← h1, hhex]
    · split
      · exact goHex_bad ds.length ds _ c (le_refl _) h2 hb
      · rfl

theorem pyIntHex_bad (s : List Char) (c : Char) (hc : c ∈ s)
    (hb : badHexChar c = true) : pyIntHex s = none := by
  obtain ⟨hhex, hws, hplus, hminus, hund⟩ := badHexChar_parts c hb
  have hmem : c ∈ pyStrip s := mem_pyStrip s c hc hws
  unfold pyIntHex
  split
  · rename_i r hr
    rw [hr] at hmem
    rcases List.mem_cons.mp hmem with h1 | h2
    · exact absurd h1 hplus
    · rw [parseHexDigits_bad r c h2 hb]; rfl
  · rename_i r hr
    rw [hr] at hmem
    rcases List.mem_cons.mp hmem with h1 | h2
    · exact absurd h1 hminus
    · rw [parseHexDigits_bad r c h2 hb]; rfl
  · rename_i hr1 hr2
    rw [parseHexDigits_bad (pyStrip s) c hmem hb]; rfl

theorem decodeGroups_bad : ∀ (n : Nat) (l : List Char) (key : Int) (c : Char),
    l.length ≤ n → c ∈ l → badHexChar c = true → decodeGroups key l = none := by
  intro n
  induction n with
  | zero =>
    intro l key c hl hc _
    cases l with
    | nil => simp at hc
    | cons d ds => simp at hl
  | succ n ih =>
    intro l key c hl hc hb
    cases l with
    | nil => simp at hc
    | cons g gs =>
      rw [decodeGroups]
      split
      · rfl
      · rename_i v hv
        have hnottake : c ∉ (g :: gs).take 2 := by
          intro hmem
          rw [pyIntHex_bad _ c hmem hb] at hv
          exact absurd hv (by simp)
        have hdrop : c ∈ (g :: gs).drop 2 := by
          have := List.take_append_drop 2 (g :: gs)
          rw [← this] at hc
          rcases List.mem_append.mp hc with h1 | h2
          · exact absurd h1 hnottake
          · exact h2
        split
        · rfl
        · rw [ih ((g :: gs).drop 2) key c
            (by simp only [List.length_cons, List.length_drop] at hl ⊢; omega) hdrop hb]
          rfl

/-! Claim C6: behaviour of the Obfuscation Resolver on malformed input. -/

unseal decodeGroups in
/-- C6 counterexample: the odd-length all-hex input abc is not rejected; the
decoder parses the trailing single character as a one-digit hex group and
returns a non-empty string, refuting the claim that every odd-length input
yields the empty string. -/
theorem c6_counterexample :
    decode_cf_email "abc".data = "§".data ∧ decode_cf_email "abc".data ≠ [] := by
  constructor <;> decide

/-- C6 amended: decode_cf_email is total and never raises; whenever the input
contains a character that can take no part in Python hex int parsing (not a
hex digit, blank, sign or underscore) some slice fails to parse and the
decoder returns the empty string; odd-length hex inputs, however, are decoded
rather than rejected, the trailing character forming a one-digit group. -/
theorem c6_amended (e : List Char) (h : ∃ c, c ∈ e ∧ badHexChar c = true) :
    decode_cf_email e = [] := by
  obtain ⟨c, hc, hb⟩ := h
  unfold decode_cf_email
  split
  · rfl
  · rename_i key hkey
    have := List.take_append_drop 2 e
    rw [← this] at hc
    rcases List.mem_append.mp hc with h1 | h2
    · rw [pyIntHex_bad _ c h1 hb] at hkey
      exact absurd hkey (by simp)
    · rw [decodeGroups_bad (e.drop 2).length (e.drop 2) key c (le_refl _) h2 hb]

/-- C6 witness: the amended statement instantiated on the input zz. -/
theorem c6_witness : decode_cf_email "zz".data = [] :=
  c6_amended "zz".data ⟨'z', by decide, by decide⟩

/-! Claim C7: the Seen-Set Tracker filter. -/

/-- C7: filter_new returns exactly the subsequence of the input urls on which
is_seen is false: it is a sublist of the input (order kept, nothing added), an
element belongs to it exactly when it belongs to the input and is unseen, and
every unseen url keeps its full multiplicity while seen urls disappear. -/
theorem c7_filter_new (t : SeenTracker) (urls : List (List Char)) :
    List.Sublist (t.filter_new urls) urls ∧
    (∀ u, u ∈ t.filter_new urls ↔ u ∈ urls ∧ t.is_seen u = false) ∧
    (∀ u, (t.filter_new urls).count u = if t.is_seen u = false then urls.count u else 0) := by
  refine ⟨List.filter_sublist _, ?_, ?_⟩
  · intro u
    unfold SeenTracker.filter_new
    rw [List.mem_filter]
    simp
  · intro u
    unfold SeenTracker.filter_new
    by_cases h : t.is_seen u = false
    · rw [if_pos h]
      exact List.count_filter (by simp [h])
    · rw [if_neg h]
      rw [List.count_eq_zero]
      intro hmem
      rw [List.mem_filter] at hmem
      exact h (by simpa using hmem.2)

/-! Claim C9: employment-type defaulting. -/

theorem typeFix_type_ne (j : Job) : (typeFix j).type ≠ [] := by
  unfold typeFix
  split
  · simp
  · rename_i h
    exact fun he => h (Or.inl he)

unseal emailSub collapseSpaces collapseNl in
/-- C9: after assembly the type field is never empty, because the type fix
replaces an empty or Organization-sentinel value with Full Time and no later
step touches the field; in particular the document whose structured data
reports employment type Organization ends with type Full Time. -/
theorem c9_type_defaulting :
    (∀ (doc : Doc) (url : List Char), (scrape_job_page doc url).type ≠ []) ∧
    (scrape_job_page docC9 "u".data).type = "Full Time".data := by
  constructor
  · intro doc url
    exact typeFix_type_ne _
  · decide

/-! Claim C10: totality and fallback of detect_country. -/

theorem countryFind_values : ∀ (m : List (List Char × List Char)) (ll c : List Char),
    countryFind m ll = some c → ∃ kv, kv ∈ m ∧ kv.2 = c := by
  intro m
  induction m with
  | nil => intro ll c h; simp [countryFind] at h
  | cons kv rest ih =>
    intro ll c h
    rw [countryFind] at h
    split at h
    · exact ⟨kv, by simp, by injection h⟩
    · obtain ⟨kv2, hmem, hval⟩ := ih ll c h
      exact ⟨kv2, by simp [hmem], hval⟩

theorem countryFind_none : ∀ (m : List (List Char × List Char)) (ll : List Char),
    (∀ kv ∈ m, isSub kv.1 ll = false) → countryFind m ll = none := by
  intro m
  induction m with
  | nil => intro ll _; rfl
  | cons kv rest ih =>
    intro ll h
    rw [countryFind]
    rw [if_neg (by simp [h kv (by simp)])]
    exact ih ll (fun kv2 hm => h kv2 (by simp [hm]))

/-- C10: detect_country is total and never returns the empty string, and on
every location whose lowercase form contains no keyword of the country table,
the empty string included, it returns the Somalia fallback. -/
theorem c10_detect_country :
    (∀ loc : List Char, detect_country loc ≠ []) ∧
    (∀ loc : List Char, (∀ kv ∈ COUNTRY_MAP, isSub kv.1 (pyLower loc) = false) →
      detect_country loc = "Somalia".data) := by
  constructor
  · intro loc
    unfold detect_country
    split
    · decide
    · split
      · rename_i c hc
        obtain ⟨kv, hkv, hval⟩ := countryFind_values _ _ _ hc
        rw [← hval]
        have hvals : ∀ kv ∈ COUNTRY_MAP, kv.2 ≠ ([] : List Char) := by decide
        exact hvals kv hkv
      · decide
  · intro loc h
    unfold detect_country
    split
    · rfl
    · rw [countryFind_none _ _ h]

/-- C10 witness: a location matching no keyword falls back to Somalia. -/
theorem c10_witness : detect_country "Paris".data = "Somalia".data :=
  c10_detect_country.2 "Paris".data (by decide)

/-! Claims C2 and C8: the Label/Value Grid Parser. -/

theorem getF_setF_same (j : Job) (f : FieldName) (v : List Char) :
    (j.setF f v).getF f = v := by
  cases f <;> rfl

theorem getF_setF_ne (j : Job) (f g : FieldName) (v : List Char) (h : f ≠ g) :
    (j.setF f v).getF g = j.getF g := by
  cases f <;> cases g <;> first | rfl | exact absurd rfl h

/-- C2 counterexample: a record already holding deadline 2025-01-01 is run
through the grid parser on a value-above-label block; the deadline is
overwritten with 2025-02-02, so the parser does write into fields that are
already set, refuting the claim. -/
theorem c2_counterexample :
    jobC2.deadline = "2025-01-01".data ∧
    (parse_job_details_section ["2025-02-02".data, "Deadline".data] jobC2).deadline =
      "2025-02-02".data := by
  constructor <;> decide

theorem gridStep_none (v : List Char) (j : Job) : gridStep none v j = j := by
  unfold gridStep
  split <;> rfl

/-- C2 amended: the grid parser writes a matched label value into the record
whenever the stripped preceding line is non-empty and under the 100-character
ceiling, regardless of whether the target field already holds a value; unlike
the body-text fallback it performs no unset check and overwrites. -/
theorem c2_amended (j : Job) (v : List Char) (h1 : pyStrip v ≠ [])
    (h2 : (pyStrip v).length < 100) :
    (gridLoop [v, "deadline".data] j).deadline = pyStrip v := by
  have hlab : gridLabelFind gridLabelMap (pyStrip (pyLower "deadline".data)) =
      some FieldName.deadline := by decide
  simp only [gridLoop, gridGo]
  rw [gridStep_none]
  unfold gridStep
  rw [hlab]
  dsimp only
  rw [if_pos ⟨h1, h2⟩]
  rfl

/-- C2 witness: the amended statement instantiated on a record whose deadline
is already set, showing the overwrite at a concrete input. -/
theorem c2_witness :
    pyStrip "2025-02-02".data ≠ [] ∧ (pyStrip "2025-02-02".data).length < 100 ∧
    (gridLoop ["2025-02-02".data, "deadline".data] jobC2).deadline =
      pyStrip "2025-02-02".data :=
  ⟨by decide, by decide, c2_amended jobC2 "2025-02-02".data (by decide) (by decide)⟩

theorem gridStep_cases (prev : Option (List Char)) (l : List Char) (j : Job) :
    gridStep prev l j = j ∨
    ∃ f2 p, prev = some p ∧ pyStrip p ≠ [] ∧ (pyStrip p).length < 100 ∧
      gridStep prev l j = j.setF f2 (gridXform f2 (pyStrip p)) := by
  unfold gridStep
  split
  · left; rfl
  · rename_i f2 hlab
    split
    · left; rfl
    · rename_i p
      dsimp only
      split
      · rename_i hcheck
        right
        exact ⟨f2, p, rfl, hcheck.1, hcheck.2, rfl⟩
      · left; rfl

theorem gridStep_write (prev : Option (List Char)) (l : List Char) (j : Job) (f : FieldName)
    (h : (gridStep prev l j).getF f ≠ j.getF f) :
    ∃ p, prev = some p ∧ pyStrip p ≠ [] ∧ (pyStrip p).length < 100 ∧
      (gridStep prev l j).getF f = gridXform f (pyStrip p) := by
  rcases gridStep_cases prev l j with heq | ⟨f2, p, hp, hne, hlen, heq⟩
  · rw [heq] at h
    exact absurd rfl h
  · by_cases hf : f2 = f
    · subst hf
      rw [heq, getF_setF_same]
      exact ⟨p, hp, hne, hlen, rfl⟩
    · rw [heq, getF_setF_ne j f2 f _ hf] at h
      exact absurd rfl h

theorem gridGo_write : ∀ (rest : List (List Char)) (prev : Option (List Char)) (j : Job)
    (f : FieldName), (gridGo prev rest j).getF f ≠ j.getF f →
    ∃ p, (prev = some p ∨ p ∈ rest) ∧ pyStrip p ≠ [] ∧ (pyStrip p).length < 100 ∧
      (gridGo prev rest j).getF f = gridXform f (pyStrip p) := by
  intro rest
  induction rest with
  | nil =>
    intro prev j f h
    rw [gridGo] at h
    exact absurd rfl h
  | cons l ls ih =>
    intro prev j f h
    rw [gridGo] at h ⊢
    by_cases h2 : (gridGo (some l) ls (gridStep prev l j)).getF f = (gridStep prev l j).getF f
    · have h3 : (gridStep prev l j).getF f ≠ j.getF f := by rw [← h2]; exact h
      obtain ⟨p, hp, hne, hlen, heq⟩ := gridStep_write prev l j f h3
      exact ⟨p, Or.inl hp, hne, hlen, by rw [h2, heq]⟩
    · obtain ⟨p, hp, hne, hlen, heq⟩ := ih (some l) (gridStep prev l j) f h2
      refine ⟨p, ?_, hne, hlen, heq⟩
      rcases hp with h4 | h5
      · injection h4 with h6
        right
        exact List.mem_cons.mpr (Or.inl h6.symm)
      · right
        exact List.mem_cons.mpr (Or.inr h5)

/-- C8: whenever the grid parser changes a field of the record, the value came
from a collected preceding line whose stripped content was non-empty and
strictly shorter than 100 characters; in particular every candidate of 100 or
more characters is rejected even when its label line matches exactly. -/
theorem c8_grid_ceiling (lines : List (List Char)) (j : Job) (f : FieldName)
    (h : (gridLoop lines j).getF f ≠ j.getF f) :
    ∃ p, p ∈ lines ∧ pyStrip p ≠ [] ∧ (pyStrip p).length < 100 ∧
      (gridLoop lines j).getF f = gridXform f (pyStrip p) := by
  obtain ⟨p, hp, hne, hlen, heq⟩ := gridGo_write lines none j f h
  rcases hp with h1 | h2
  · exact absurd h1 (by simp)
  · exact ⟨p, h2, hne, hlen, heq⟩

/-- C8 witness: the theorem instantiated on a concrete collected sequence
that writes the location field. -/
theorem c8_witness :
    (gridLoop ["Nairobi".data, "Location".data] (initJob "u".data)).getF FieldName.location ≠
      (initJob "u".data).getF FieldName.location ∧
    ∃ p, p ∈ [("Nairobi".data : List Char), "Location".data] ∧ pyStrip p ≠ [] ∧
      (pyStrip p).length < 100 ∧
      (gridLoop ["Nairobi".data, "Location".data] (initJob "u".data)).getF FieldName.location =
        gridXform FieldName.location (pyStrip p) :=
  ⟨by decide, c8_grid_ceiling _ _ _ (by decide)⟩

/-! Claim C1: survival of structured-data values through the fallback chain. -/

theorem setF_title (j : Job) (f : FieldName) (v : List Char) :
    (j.setF f v).title = j.title := by
  cases f <;> rfl

theorem setF_organization (j : Job) (f : FieldName) (v : List Char) :
    (j.setF f v).organization = j.organization := by
  cases f <;> rfl

theorem method2_title (doc : Doc) (j : Job) : (method2 doc j).title = j.title := by
  unfold method2
  repeat first | rfl | split | dsimp only

theorem method2_org_ne (doc : Doc) (j : Job) (h : j.organization ≠ []) :
    (method2 doc j).organization = j.organization := by
  unfold method2
  rw [if_neg h]
  repeat first | rfl | split | dsimp only

theorem method3_title_none (doc : Doc) (j : Job) (h : doc.h1 = none) :
    method3 doc j = j := by
  unfold method3
  rw [h]

theorem method3_org (doc : Doc) (j : Job) :
    (method3 doc j).organization = j.organization := by
  unfold method3
  split <;> rfl

theorem method4_title (doc : Doc) (j : Job) : (method4 doc j).title = j.title := by
  unfold method4
  repeat first | rfl | split | dsimp only

theorem method4_org_ne (doc : Doc) (j : Job) (h : j.organization ≠ []) :
    (method4 doc j).organization = j.organization := by
  unfold method4
  rw [if_neg h]

theorem gridStep_title (prev : Option (List Char)) (l : List Char) (j : Job) :
    (gridStep prev l j).title = j.title := by
  rcases gridStep_cases prev l j with h | ⟨f2, p, _, _, _, h⟩
  · rw [h]
  · rw [h, setF_title]

theorem gridStep_org (prev : Option (List Char)) (l : List Char) (j : Job) :
    (gridStep prev l j).organization = j.organization := by
  rcases gridStep_cases prev l j with h | ⟨f2, p, _, _, _, h⟩
  · rw [h]
  · rw [h, setF_organization]

theorem gridGo_title : ∀ (rest : List (List Char)) (prev : Option (List Char)) (j : Job),
    (gridGo prev rest j).title = j.title := by
  intro rest
  induction rest with
  | nil => intro prev j; rw [gridGo]
  | cons l ls ih =>
    intro prev j
    rw [gridGo, ih, gridStep_title]

theorem gridGo_org : ∀ (rest : List (List Char)) (prev : Option (List Char)) (j : Job),
    (gridGo prev rest j).organization = j.organization := by
  intro rest
  induction rest with
  | nil => intro prev j; rw [gridGo]
  | cons l ls ih =>
    intro prev j
    rw [gridGo, ih, gridStep_org]

theorem sectionStep_title (j : Job) (s : Section) : (sectionStep j s).title = j.title := by
  unfold sectionStep
  repeat first | rfl | exact gridGo_title _ _ _ | split | dsimp only

theorem sectionStep_org (j : Job) (s : Section) :
    (sectionStep j s).organization = j.organization := by
  unfold sectionStep
  repeat first | rfl | exact gridGo_org _ _ _ | split | dsimp only

theorem sectionsPass_title : ∀ (ss : List Section) (j : Job),
    (sectionsPass ss j).title = j.title := by
  intro ss
  induction ss with
  | nil => intro j; rfl
  | cons s ss ih =>
    intro j
    simp only [sectionsPass, List.foldl_cons] at ih ⊢
    rw [ih, sectionStep_title]

theorem sectionsPass_org : ∀ (ss : List Section) (j : Job),
    (sectionsPass ss j).organization = j.organization := by
  intro ss
  induction ss with
  | nil => intro j; rfl
  | cons s ss ih =>
    intro j
    simp only [sectionsPass, List.foldl_cons] at ih ⊢
    rw [ih, sectionStep_org]

theorem bodyStep_title (prev l : List Char) (j : Job) : (bodyStep prev l j).title = j.title := by
  unfold bodyStep
  repeat first | rfl | exact setF_title _ _ _ | split | dsimp only

theorem bodyStep_org (prev l : List Char) (j : Job) :
    (bodyStep prev l j).organization = j.organization := by
  unfold bodyStep
  repeat first | rfl | exact setF_organization _ _ _ | split | dsimp only

theorem bodyGo_title : ∀ (rest : List (List Char)) (prev : List Char) (j : Job),
    (bodyGo prev rest j).title = j.title := by
  intro rest
  induction rest with
  | nil => intro prev j; rw [bodyGo]
  | cons l ls ih =>
    intro prev j
    rw [bodyGo, ih, bodyStep_title]

theorem bodyGo_org : ∀ (rest : List (List Char)) (prev : List Char) (j : Job),
    (bodyGo prev rest j).organization = j.organization := by
  intro rest
  induction rest with
  | nil => intro prev j; rw [bodyGo]
  | cons l ls ih =>
    intro prev j
    rw [bodyGo, ih, bodyStep_org]

theorem bodyScanPass_title (doc : Doc) (j : Job) : (bodyScanPass doc j).title = j.title := by
  unfold bodyScanPass
  split
  · rfl
  · exact bodyGo_title _ _ _

theorem bodyScanPass_org (doc : Doc) (j : Job) :
    (bodyScanPass doc j).organization = j.organization := by
  unfold bodyScanPass
  split
  · rfl
  · exact bodyGo_org _ _ _

theorem inlineDeadlinePass_title (doc : Doc) (j : Job) :
    (inlineDeadlinePass doc j).title = j.title := by
  unfold inlineDeadlinePass
  repeat first | rfl | split | dsimp only

theorem inlineDeadlinePass_org (doc : Doc) (j : Job) :
    (inlineDeadlinePass doc j).organization = j.organization := by
  unfold inlineDeadlinePass
  repeat first | rfl | split | dsimp only

theorem combineDesc_title (j : Job) : (combineDesc j).title = j.title := rfl

theorem combineDesc_org (j : Job) : (combineDesc j).organization = j.organization := rfl

theorem typeFix_title (j : Job) : (typeFix j).title = j.title := by
  unfold typeFix
  split <;> rfl

theorem typeFix_org (j : Job) : (typeFix j).organization = j.organization := by
  unfold typeFix
  split <;> rfl

theorem setCountry_title (j : Job) : (setCountry j).title = j.title := rfl

theorem setCountry_org (j : Job) : (setCountry j).organization = j.organization := rfl

theorem cleanFields_title (j : Job) : (cleanFields j).title = clean_text j.title := rfl

theorem cleanFields_org (j : Job) :
    (cleanFields j).organization = clean_text j.organization := rfl

/-- C1 amended: the fallback strategies that are guarded by an emptiness check
(raw-HTML regex, company link, body label scan, inline deadline) never
overwrite a structured-data value, but the h1 heading strategy unconditionally
overwrites the title whenever an h1 exists, and the job-details grid parser
may overwrite its six fields.  Consequently, on a document with no h1 the
structured-data title reaches the final record up to final text cleaning, and
a non-empty structured-data organization always does. -/
theorem c1_amended :
    (∀ (doc : Doc) (url : List Char), doc.h1 = none →
      (scrape_job_page doc url).title =
        clean_text (method1 doc.ldScripts (initJob url)).title) ∧
    (∀ (doc : Doc) (url : List Char),
      (method1 doc.ldScripts (initJob url)).organization ≠ [] →
      (scrape_job_page doc url).organization =
        clean_text (method1 doc.ldScripts (initJob url)).organization) := by
  constructor
  · intro doc url h
    unfold scrape_job_page
    rw [cleanFields_title, setCountry_title, typeFix_title, combineDesc_title,
      inlineDeadlinePass_title, bodyScanPass_title, sectionsPass_title, method4_title,
      method3_title_none doc _ h, method2_title]
  · intro doc url h
    unfold scrape_job_page
    rw [cleanFields_org, setCountry_org, typeFix_org, combineDesc_org,
      inlineDeadlinePass_org, bodyScanPass_org, sectionsPass_org]
    have hm2 : (method2 doc (method1 doc.ldScripts (initJob url))).organization =
        (method1 doc.ldScripts (initJob url)).organization :=
      method2_org_ne doc _ h
    have hm3 : (method3 doc (method2 doc (method1 doc.ldScripts (initJob url)))).organization =
        (method2 doc (method1 doc.ldScripts (initJob url))).organization :=
      method3_org _ _
    rw [method4_org_ne _ _ (by rw [hm3, hm2]; exact h), hm3, hm2]

unseal emailSub collapseSpaces collapseNl in
/-- C1 counterexample: a document whose structured data supplies the non-empty
title Program Officer but which also carries an h1 reading Driver; the record
title after the chain is Driver, not the structured-data title, refuting the
claim that no later strategy overwrites a structured-data value. -/
theorem c1_counterexample :
    (method1 docC1.ldScripts (initJob "u".data)).title = "Program Officer".data ∧
    (scrape_job_page docC1 "u".data).title = "Driver".data := by
  constructor <;> decide

/-- C1 witness: the amended statement instantiated on a document with
structured data and no h1. -/
theorem c1_witness :
    (scrape_job_page docC1w "u".data).title =
      clean_text (method1 docC1w.ldScripts (initJob "u".data)).title ∧
    (scrape_job_page docC1w "u".data).organization =
      clean_text (method1 docC1w.ldScripts (initJob "u".data)).organization :=
  ⟨c1_amended.1 docC1w "u".data rfl, c1_amended.2 docC1w "u".data (by decide)⟩

/-! Toolkit for the email-placeholder pattern: a match decomposes into a
case-insensitive copy of the opening literal, a whitespace gap and a
case-insensitive copy of the closing literal, and match-freeness is closed
under the list operations the normalizer performs. -/

theorem pyIsSpace_toLower (c : Char) (h : pyIsSpace c = true) : c.toLower = c := by
  simp only [pyIsSpace, Bool.or_eq_true, decide_eq_true_eq, or_assoc] at h
  rcases h with h|h|h|h|h|h|h|h|h|h|h|h|h|h|h|h|h|h|h|h|h|h|h|h|h|h|h|h|h <;>
    (subst h; decide)

theorem ws_lowEq_false (c q : Char) (hc : pyIsSpace c = true)
    (hq : pyIsSpace q.toLower = false) : lowEq c q = false := by
  cases hle : lowEq c q
  · rfl
  · exfalso
    have he : c.toLower = q.toLower := by
      simpa [lowEq] using hle
    rw [pyIsSpace_toLower c hc] at he
    rw [← he, hc] at hq
    exact Bool.noConfusion hq

theorem forall2_nonws : ∀ (a p : List Char),
    List.Forall₂ (fun x y => lowEq x y = true) a p →
    (∀ q ∈ p, pyIsSpace q.toLower = false) → ∀ c ∈ a, pyIsSpace c = false := by
  intro a p h
  induction h with
  | nil =>
    intro _ c hc
    exact absurd hc (List.not_mem_nil c)
  | cons hr hrest ih =>
    rename_i x y l₁ l₂
    intro hp c hc
    rcases List.mem_cons.mp hc with rfl | hc2
    · cases hws : pyIsSpace c
      · rfl
      · have hf := ws_lowEq_false c y hws (hp y (by simp))
        rw [hf] at hr
        exact Bool.noConfusion hr
    · exact ih (fun q hq => hp q (by simp [hq])) c hc2

theorem mem_takeWhile_ws (p : Char → Bool) : ∀ (l : List Char) (c : Char),
    c ∈ l.takeWhile p → p c = true := by
  intro l
  induction l with
  | nil =>
    intro c hc
    rw [List.takeWhile_nil] at hc
    exact absurd hc (List.not_mem_nil c)
  | cons a as ih =>
    intro c hc
    rw [List.takeWhile_cons] at hc
    by_cases hpa : p a = true
    · rw [if_pos hpa] at hc
      rcases List.mem_cons.mp hc with rfl | hc2
      · exact hpa
      · exact ih c hc2
    · rw [if_neg hpa] at hc
      exact absurd hc (List.not_mem_nil c)

theorem dropWhile_append_all (p : Char → Bool) : ∀ (w l : List Char),
    (∀ c ∈ w, p c = true) → (w ++ l).dropWhile p = l.dropWhile p := by
  intro w
  induction w with
  | nil => intro l _; rfl
  | cons c cs ih =>
    intro l h
    rw [List.cons_append, List.dropWhile_cons, if_pos (h c (by simp))]
    exact ih l (fun d hd => h d (by simp [hd]))

theorem expectCI_decomp : ∀ (p l r : List Char), expectCI p l = some r →
    ∃ a, l = a ++ r ∧ List.Forall₂ (fun x y => lowEq x y = true) a p := by
  intro p
  induction p with
  | nil =>
    intro l r h
    simp only [expectCI, Option.some_inj] at h
    exact ⟨[], by simp [h], List.Forall₂.nil⟩
  | cons pc ps ih =>
    intro l r h
    cases l with
    | nil => exact absurd h (by simp [expectCI])
    | cons c cs =>
      simp only [expectCI] at h
      split at h
      · rename_i hlow
        rcases ih cs r h with ⟨a, ha, hf⟩
        exact ⟨c :: a, by simp [ha], List.Forall₂.cons hlow hf⟩
      · exact absurd h (by simp)

theorem expectCI_build : ∀ {p a : List Char} (t : List Char),
    List.Forall₂ (fun x y => lowEq x y = true) a p → expectCI p (a ++ t) = some t := by
  intro p a t h
  induction h with
  | nil => rfl
  | cons hr hrest ih =>
    rename_i x y l₁ l₂
    rw [List.cons_append]
    simp only [expectCI]
    rw [if_pos hr]
    exact ih

theorem matchEmail_decomp (l r : List Char) (h : matchEmail l = some r) :
    ∃ a w b, l = a ++ (w ++ (b ++ r)) ∧
      List.Forall₂ (fun x y => lowEq x y = true) a "[email".data ∧
      (∀ c ∈ w, pyIsSpace c = true) ∧
      List.Forall₂ (fun x y => lowEq x y = true) b "protected]".data := by
  unfold matchEmail at h
  rcases he : expectCI "[email".data l with _ | r1
  · rw [he] at h
    exact absurd h (by simp)
  · rw [he] at h
    dsimp only at h
    rcases expectCI_decomp _ _ _ he with ⟨a, ha, hfa⟩
    rcases expectCI_decomp _ _ _ h with ⟨b, hb, hfb⟩
    refine ⟨a, r1.takeWhile pyIsSpace, b, ?_, hfa, ?_, hfb⟩
    · rw [ha]
      congr 1
      conv_lhs => rw [show r1 = r1.takeWhile pyIsSpace ++ r1.dropWhile pyIsSpace from
        (List.takeWhile_append_dropWhile pyIsSpace r1).symm]
      rw [hb]
    · intro c hc
      exact mem_takeWhile_ws pyIsSpace r1 c hc

theorem matchEmail_build (a w b r : List Char)
    (hfa : List.Forall₂ (fun x y => lowEq x y = true) a "[email".data)
    (hw : ∀ c ∈ w, pyIsSpace c = true)
    (hfb : List.Forall₂ (fun x y => lowEq x y = true) b "protected]".data) :
    matchEmail (a ++ (w ++ (b ++ r))) = some r := by
  unfold matchEmail
  rw [expectCI_build _ hfa]
  dsimp only
  rw [dropWhile_append_all pyIsSpace w _ hw]
  cases b with
  | nil =>
    have hlen := hfb.length_eq
    simp at hlen
  | cons b0 bs =>
    have hb0 : lowEq b0 'p' = true := by
      rw [show ("protected]".data : List Char) = 'p' :: "rotected]".data from rfl] at hfb
      cases hfb with
      | cons h1 h2 => exact h1
    have hb0ws : pyIsSpace b0 = false := by
      cases hws : pyIsSpace b0
      · rfl
      · rw [ws_lowEq_false b0 'p' hws (by decide)] at hb0
        exact Bool.noConfusion hb0
    rw [List.cons_append, List.dropWhile_cons, if_neg (by simp [hb0ws]), ← List.cons_append]
    exact expectCI_build _ hfb

theorem hasMatch_cons_of (c : Char) (t : List Char) (h : hasMatch t = true) :
    hasMatch (c :: t) = true := by
  simp only [hasMatch, h, Bool.or_true]

theorem hasMatch_of_decomp : ∀ (u v r : List Char), matchEmail v = some r →
    hasMatch (u ++ v) = true := by
  intro u
  induction u with
  | nil =>
    intro v r h
    cases v with
    | nil =>
      rw [show matchEmail [] = none from rfl] at h
      exact Option.noConfusion h
    | cons c cs =>
      simp only [List.nil_append, hasMatch, h, Option.isSome_some, Bool.true_or]
  | cons c cs ih =>
    intro v r h
    exact hasMatch_cons_of _ _ (ih v r h)

theorem hasMatch_true_decomp : ∀ (l : List Char), hasMatch l = true →
    ∃ u v r, l = u ++ v ∧ matchEmail v = some r := by
  intro l
  induction l with
  | nil =>
    intro h
    exact absurd h (by simp [hasMatch])
  | cons c cs ih =>
    intro h
    simp only [hasMatch, Bool.or_eq_true] at h
    rcases h with h | h
    · rcases Option.isSome_iff_exists.mp h with ⟨r, hr⟩
      exact ⟨[], c :: cs, r, rfl, hr⟩
    · rcases ih h with ⟨u, v, r, hu, hv⟩
      exact ⟨c :: u, v, r, by simp [hu], hv⟩

theorem matchEmail_extend (v r e : List Char) (h : matchEmail v = some r) :
    matchEmail (v ++ e) = some (r ++ e) := by
  rcases matchEmail_decomp v r h with ⟨a, w, b, hv, hfa, hw, hfb⟩
  rw [hv, show a ++ (w ++ (b ++ r)) ++ e = a ++ (w ++ (b ++ (r ++ e))) from by
    simp [List.append_assoc]]
  exact matchEmail_build a w b (r ++ e) hfa hw hfb

theorem hasMatch_mid_true (m u w : List Char) (h : hasMatch m = true) :
    hasMatch (u ++ (m ++ w)) = true := by
  rcases hasMatch_true_decomp m h with ⟨u2, v, r, hm, hv⟩
  rw [show u ++ (m ++ w) = (u ++ u2) ++ (v ++ w) from by rw [hm]; simp [List.append_assoc]]
  exact hasMatch_of_decomp _ _ _ (matchEmail_extend v r w hv)

theorem hasMatch_mid_false (m u w : List Char) (h : hasMatch (u ++ (m ++ w)) = false) :
    hasMatch m = false := by
  cases hm : hasMatch m
  · rfl
  · rw [hasMatch_mid_true m u w hm] at h
    exact Bool.noConfusion h

theorem matchEmail_headFail (c : Char) (t : List Char) (h : lowEq c '[' = false) :
    matchEmail (c :: t) = none := by
  unfold matchEmail
  rw [show expectCI "[email".data (c :: t) = none from by
    rw [show ("[email".data : List Char) = '[' :: "email".data from rfl]
    simp only [expectCI]
    simp [h]]

theorem matchEmail_head2Fail (c : Char) (t : List Char) (h : lowEq c 'e' = false) :
    matchEmail ('[' :: c :: t) = none := by
  unfold matchEmail
  rw [show expectCI "[email".data ('[' :: c :: t) = none from by
    rw [show ("[email".data : List Char) = '[' :: 'e' :: "mail".data from rfl]
    simp only [expectCI]
    rw [if_pos (by decide)]
    simp [h]]

theorem hasMatch_wsPad_left : ∀ (w m : List Char), (∀ c ∈ w, pyIsSpace c = true) →
    hasMatch (w ++ m) = hasMatch m := by
  intro w
  induction w with
  | nil => intro m _; rfl
  | cons c cs ih =>
    intro m h
    have hkill : lowEq c '[' = false := ws_lowEq_false c '[' (h c (by simp)) (by decide)
    rw [List.cons_append]
    simp only [hasMatch, matchEmail_headFail c _ hkill, Option.isSome_none, Bool.false_or]
    exact ih m (fun d hd => h d (by simp [hd]))

theorem pyRStrip_decomp (l : List Char) :
    ∃ w, (∀ c ∈ w, pyIsSpace c = true) ∧ l = pyRStrip l ++ w := by
  refine ⟨(l.reverse.takeWhile pyIsSpace).reverse, ?_, ?_⟩
  · intro c hc
    rw [List.mem_reverse] at hc
    exact mem_takeWhile_ws pyIsSpace _ c hc
  · conv_lhs => rw [show l = (l.reverse.takeWhile pyIsSpace ++ l.reverse.dropWhile pyIsSpace).reverse
      from by rw [List.takeWhile_append_dropWhile, List.reverse_reverse]]
    rw [List.reverse_append]
    rfl

theorem pyStrip_decomp (l : List Char) :
    ∃ w₁ w₂, (∀ c ∈ w₁, pyIsSpace c = true) ∧ (∀ c ∈ w₂, pyIsSpace c = true) ∧
      l = w₁ ++ (pyStrip l ++ w₂) := by
  rcases pyRStrip_decomp l with ⟨w₂, hw₂, h₂⟩
  refine ⟨(pyRStrip l).takeWhile pyIsSpace, w₂, ?_, hw₂, ?_⟩
  · intro c hc
    exact mem_takeWhile_ws pyIsSpace _ c hc
  · conv_lhs => rw [h₂]
    conv_lhs => rw [show pyRStrip l =
      (pyRStrip l).takeWhile pyIsSpace ++ (pyRStrip l).dropWhile pyIsSpace from
      (List.takeWhile_append_dropWhile pyIsSpace (pyRStrip l)).symm]
    rw [List.append_assoc]
    rfl

theorem hasMatch_pyStrip_false (l : List Char) (h : hasMatch l = false) :
    hasMatch (pyStrip l) = false := by
  rcases pyStrip_decomp l with ⟨w₁, w₂, _, _, hl⟩
  rw [hl] at h
  exact hasMatch_mid_false _ _ _ h

theorem hasMatch_take_false (l : List Char) (n : Nat) (h : hasMatch l = false) :
    hasMatch (l.take n) = false := by
  have hl : l = [] ++ (l.take n ++ l.drop n) := by simp
  rw [hl] at h
  exact hasMatch_mid_false _ _ _ h

/-! The whitespace-skeleton relation: reflexivity, symmetry, concatenation,
inversion at a non-whitespace head, and transport of matches across it. -/

theorem wsEq_refl : ∀ (l : List Char), WsEq l l := by
  intro l
  induction l with
  | nil => exact WsEq.nil
  | cons c cs ih =>
    cases hc : pyIsSpace c
    · exact WsEq.ch c hc ih
    · exact WsEq.run [c] [c] (by simp [hc]) (by simp [hc]) (by simp) ih

theorem wsEq_symm : ∀ {x y : List Char}, WsEq x y → WsEq y x := by
  intro x y h
  induction h with
  | nil => exact WsEq.nil
  | ch c hc _ ih => exact WsEq.ch c hc ih
  | run w₁ w₂ h₁ h₂ hne _ ih => exact WsEq.run w₂ w₁ h₂ h₁ hne.symm ih

theorem wsEq_append : ∀ {x y : List Char}, WsEq x y → ∀ {u v : List Char}, WsEq u v →
    WsEq (x ++ u) (y ++ v) := by
  intro x y h
  induction h with
  | nil => intro u v h2; exact h2
  | ch c hc _ ih => intro u v h2; exact WsEq.ch c hc (ih h2)
  | run w₁ w₂ h₁ h₂ hne _ ih =>
    intro u v h2
    rw [List.append_assoc, List.append_assoc]
    exact WsEq.run w₁ w₂ h₁ h₂ hne (ih h2)

theorem wsEq_cons_inv : ∀ {x y : List Char}, WsEq x y → ∀ (c : Char) (x' : List Char),
    pyIsSpace c = false → x = c :: x' → ∃ y', y = c :: y' ∧ WsEq x' y' := by
  intro x y h
  induction h with
  | nil =>
    intro c x' _ hx
    exact absurd hx (by simp)
  | ch d hd sub ih =>
    intro c x' _ hx
    rw [List.cons_eq_cons] at hx
    rcases hx with ⟨rfl, rfl⟩
    exact ⟨_, rfl, sub⟩
  | run w₁ w₂ h₁ h₂ hne sub ih =>
    intro c x' hc hx
    cases w₁ with
    | nil =>
      rw [hne.mp rfl]
      rcases ih c x' hc (by simpa using hx) with ⟨y', hy, hsub⟩
      exact ⟨y', by simp [hy], hsub⟩
    | cons e es =>
      exfalso
      have he : e = c := by
        rw [List.cons_append, List.cons_eq_cons] at hx
        exact hx.1
      rw [← he] at hc
      rw [h₁ e (by simp)] at hc
      exact Bool.noConfusion hc

theorem wsEq_dropWhile : ∀ {x y : List Char}, WsEq x y →
    WsEq (x.dropWhile pyIsSpace) (y.dropWhile pyIsSpace) := by
  intro x y h
  induction h with
  | nil => exact WsEq.nil
  | ch c hc sub ih =>
    rw [List.dropWhile_cons, List.dropWhile_cons, if_neg (by simp [hc]), if_neg (by simp [hc])]
    exact WsEq.ch c hc sub
  | run w₁ w₂ h₁ h₂ hne sub ih =>
    rw [dropWhile_append_all pyIsSpace w₁ _ h₁, dropWhile_append_all pyIsSpace w₂ _ h₂]
    exact ih

theorem sim_expectCI : ∀ (p : List Char), (∀ q ∈ p, pyIsSpace q.toLower = false) →
    ∀ {x y : List Char} (r : List Char), WsEq x y → expectCI p x = some r →
    ∃ r', expectCI p y = some r' ∧ WsEq r r' := by
  intro p
  induction p with
  | nil =>
    intro _ x y r h he
    simp only [expectCI, Option.some_inj] at he
    exact ⟨y, rfl, he ▸ h⟩
  | cons pc ps ih =>
    intro hp x y r h he
    cases x with
    | nil => exact absurd he (by simp [expectCI])
    | cons c cs =>
      simp only [expectCI] at he
      split at he
      · rename_i hlow
        have hcws : pyIsSpace c = false := by
          cases hws : pyIsSpace c
          · rfl
          · rw [ws_lowEq_false c pc hws (hp pc (by simp))] at hlow
            exact Bool.noConfusion hlow
        rcases wsEq_cons_inv h c cs hcws rfl with ⟨y', hy, hsub⟩
        rcases ih (fun q hq => hp q (by simp [hq])) r hsub he with ⟨r', hr, hrr⟩
        refine ⟨r', ?_, hrr⟩
        rw [hy]
        simp only [expectCI]
        rw [if_pos hlow]
        exact hr
      · exact absurd he (by simp)

theorem sim_matchEmail : ∀ {x y : List Char} (r : List Char), WsEq x y →
    matchEmail x = some r → ∃ r', matchEmail y = some r' ∧ WsEq r r' := by
  intro x y r h hm
  unfold matchEmail at hm ⊢
  rcases he : expectCI "[email".data x with _ | r1
  · rw [he] at hm
    exact absurd hm (by simp)
  · rw [he] at hm
    dsimp only at hm
    rcases sim_expectCI "[email".data (by decide) r1 h he with ⟨r1', he', h1⟩
    rw [he']
    dsimp only
    rcases sim_expectCI "protected]".data (by decide) r (wsEq_dropWhile h1) hm with ⟨r', hr, hrr⟩
    exact ⟨r', hr, hrr⟩

theorem wsEq_hasMatch : ∀ {x y : List Char}, WsEq x y → hasMatch x = true →
    hasMatch y = true := by
  intro x y h
  induction h with
  | nil =>
    intro hm
    exact absurd hm (by simp [hasMatch])
  | ch c hc sub ih =>
    intro hm
    simp only [hasMatch, Bool.or_eq_true] at hm
    rcases hm with hm | hm
    · rcases Option.isSome_iff_exists.mp hm with ⟨r, hr⟩
      rcases sim_matchEmail r (WsEq.ch c hc sub) hr with ⟨r', hr', _⟩
      simp only [hasMatch, hr', Option.isSome_some, Bool.true_or]
    · exact hasMatch_cons_of _ _ (ih hm)
  | run w₁ w₂ h₁ h₂ hne sub ih =>
    intro hm
    rw [hasMatch_wsPad_left w₁ _ h₁] at hm
    rw [hasMatch_wsPad_left w₂ _ h₂]
    exact ih hm

theorem wsEq_hasMatch_eq {x y : List Char} (h : WsEq x y) : hasMatch x = hasMatch y := by
  cases hx : hasMatch x
  · cases hy : hasMatch y
    · rfl
    · exact absurd (wsEq_hasMatch (wsEq_symm h) hy) (by simp [hx])
  · rw [wsEq_hasMatch h hx]

/-! The whitespace-editing stages of clean_text against the skeleton relation. -/

theorem isST_ws (c : Char) (h : isST c = true) : pyIsSpace c = true := by
  simp only [isST, Bool.or_eq_true, decide_eq_true_eq] at h
  rcases h with h | h <;> (subst h; decide)

theorem wsEq_collapseSpaces_aux : ∀ (n : Nat) (l : List Char), l.length ≤ n →
    WsEq l (collapseSpaces l) := by
  intro n
  induction n with
  | zero =>
    intro l hl
    have hnil : l = [] := by
      cases l
      · rfl
      · simp at hl
    subst hnil
    rw [show collapseSpaces [] = [] from by simp [collapseSpaces.eq_def]]
    exact WsEq.nil
  | succ n ih =>
    intro l hl
    cases l with
    | nil =>
      rw [show collapseSpaces [] = [] from by simp [collapseSpaces.eq_def]]
      exact WsEq.nil
    | cons c cs =>
      rw [collapseSpaces.eq_def]
      dsimp only
      split
      · rename_i hST
        split
        · exact wsEq_refl [c]
        · rename_i d ds
          split
          · rename_i hSTd
            have hsplit : c :: d :: ds =
                (c :: (d :: ds).takeWhile isST) ++ (d :: ds).dropWhile isST := by
              rw [List.cons_append, List.takeWhile_append_dropWhile]
            have hlen : ((d :: ds).dropWhile isST).length ≤ n := by
              have h1 := lenDropWhile isST (d :: ds)
              simp only [List.length_cons] at hl h1 ⊢
              omega
            conv_lhs => rw [hsplit]
            refine WsEq.run (c :: (d :: ds).takeWhile isST) [' '] ?_ (by decide) (by simp)
              (ih _ hlen)
            intro x hx
            rcases List.mem_cons.mp hx with rfl | hx2
            · exact isST_ws x hST
            · exact isST_ws x (mem_takeWhile_ws isST _ x hx2)
          · rename_i hSTd
            have hsub : WsEq (d :: ds) (collapseSpaces (d :: ds)) := by
              refine ih _ ?_
              simp only [List.length_cons] at hl ⊢
              omega
            exact WsEq.run [c] [c] (by simp [isST_ws c hST]) (by simp [isST_ws c hST])
              (by simp) hsub
      · rename_i hST
        have hsub : WsEq cs (collapseSpaces cs) := by
          refine ih _ ?_
          simp only [List.length_cons] at hl
          omega
        cases hws : pyIsSpace c
        · exact WsEq.ch c hws hsub
        · exact WsEq.run [c] [c] (by simp [hws]) (by simp [hws]) (by simp) hsub

theorem wsEq_collapseSpaces (l : List Char) : WsEq l (collapseSpaces l) :=
  wsEq_collapseSpaces_aux l.length l (le_refl _)

theorem wsEq_collapseNl_aux : ∀ (n : Nat) (l : List Char), l.length ≤ n →
    WsEq l (collapseNl l) := by
  intro n
  induction n with
  | zero =>
    intro l hl
    have hnil : l = [] := by
      cases l
      · rfl
      · simp at hl
    subst hnil
    rw [show collapseNl [] = [] from by simp [collapseNl.eq_def]]
    exact WsEq.nil
  | succ n ih =>
    intro l hl
    cases l with
    | nil =>
      rw [show collapseNl [] = [] from by simp [collapseNl.eq_def]]
      exact WsEq.nil
    | cons c cs =>
      rw [collapseNl.eq_def]
      dsimp only
      split
      · rename_i hc
        split
        · exact wsEq_refl [c]
        · rename_i d ds
          split
          · rename_i hd
            split
            · exact wsEq_refl [c, d]
            · rename_i e es
              split
              · rename_i he
                have hsplit : c :: d :: e :: es =
                    (c :: (d :: e :: es).takeWhile (fun x => x = '\n')) ++
                      (d :: e :: es).dropWhile (fun x => x = '\n') := by
                  rw [List.cons_append, List.takeWhile_append_dropWhile]
                have hlen : ((d :: e :: es).dropWhile (fun x => x = '\n')).length ≤ n := by
                  have h1 := lenDropWhile (fun x => decide (x = '\n')) (d :: e :: es)
                  simp only [List.length_cons] at hl h1 ⊢
                  omega
                conv_lhs => rw [hsplit]
                refine WsEq.run (c :: (d :: e :: es).takeWhile (fun x => x = '\n'))
                  ['\n', '\n'] ?_ (by decide) (by simp) (ih _ hlen)
                intro x hx
                rcases List.mem_cons.mp hx with rfl | hx2
                · rw [hc]; decide
                · have := mem_takeWhile_ws (fun x => decide (x = '\n')) _ x hx2
                  rw [of_decide_eq_true this]
                  decide
              · rename_i he
                have hsub : WsEq (e :: es) (collapseNl (e :: es)) := by
                  refine ih _ ?_
                  simp only [List.length_cons] at hl ⊢
                  omega
                have h2 : WsEq ([d] ++ (e :: es)) ([d] ++ collapseNl (e :: es)) :=
                  WsEq.run [d] [d] (by subst hd; decide) (by subst hd; decide) (by simp) hsub
                exact WsEq.run [c] [c] (by subst hc; decide) (by subst hc; decide) (by simp) h2
          · rename_i hd
            have hsub : WsEq (d :: ds) (collapseNl (d :: ds)) := by
              refine ih _ ?_
              simp only [List.length_cons] at hl ⊢
              omega
            exact WsEq.run [c] [c] (by subst hc; decide) (by subst hc; decide) (by simp) hsub
      · rename_i hc
        have hsub : WsEq cs (collapseNl cs) := by
          refine ih _ ?_
          simp only [List.length_cons] at hl
          omega
        cases hws : pyIsSpace c
        · exact WsEq.ch c hws hsub
        · exact WsEq.run [c] [c] (by simp [hws]) (by simp [hws]) (by simp) hsub

theorem wsEq_collapseNl (l : List Char) : WsEq l (collapseNl l) :=
  wsEq_collapseNl_aux l.length l (le_refl _)

theorem firstNl : ∀ (l : List Char), '\n' ∈ l → ∃ a b, l = a ++ '\n' :: b ∧ '\n' ∉ a := by
  intro l
  induction l with
  | nil =>
    intro h
    exact absurd h (List.not_mem_nil _)
  | cons c cs ih =>
    intro h
    by_cases hc : c = '\n'
    · exact ⟨[], cs, by rw [hc]; rfl, by simp⟩
    · have hm : '\n' ∈ cs := by
        rcases List.mem_cons.mp h with he | hm
        · exact absurd he.symm hc
        · exact hm
      rcases ih hm with ⟨a, b, hab, hna⟩
      refine ⟨c :: a, b, by rw [List.cons_append, hab], ?_⟩
      intro hmm
      rcases List.mem_cons.mp hmm with he | hm2
      · exact hc he.symm
      · exact hna hm2

theorem splitOnNl_append_nonl : ∀ (a b : List Char), '\n' ∉ a →
    splitOnNl (a ++ '\n' :: b) = a :: splitOnNl b := by
  intro a
  induction a with
  | nil =>
    intro b _
    simp [splitOnNl]
  | cons c a' ih =>
    intro b h
    have hc : ¬(c = '\n') := fun he => h (by simp [he])
    rw [List.cons_append, splitOnNl, if_neg hc, ih b (fun hm => h (by simp [hm]))]

theorem lineTrim_step (a b : List Char) (h : '\n' ∉ a) :
    lineTrim (a ++ '\n' :: b) = pyStrip a ++ '\n' :: lineTrim b := by
  unfold lineTrim
  rw [splitOnNl_append_nonl a b h, List.map_cons]
  cases hsp : (splitOnNl b).map pyStrip with
  | nil =>
    rw [List.map_eq_nil] at hsp
    exact absurd hsp (splitOnNl_ne_nil b)
  | cons x xs =>
    rw [joinNl]

theorem lineTrim_decomp : ∀ (n : Nat) (l : List Char), l.length ≤ n →
    ∃ w₁ w₂ m, (∀ c ∈ w₁, pyIsSpace c = true) ∧ (∀ c ∈ w₂, pyIsSpace c = true) ∧
      l = w₁ ++ (m ++ w₂) ∧ WsEq m (lineTrim l) := by
  intro n
  induction n with
  | zero =>
    intro l hl
    have hnil : l = [] := by
      cases l
      · rfl
      · simp at hl
    subst hnil
    exact ⟨[], [], [], by simp, by simp, rfl,
      by rw [show lineTrim [] = [] from rfl]; exact WsEq.nil⟩
  | succ n ih =>
    intro l hl
    by_cases hnl : '\n' ∈ l
    · rcases firstNl l hnl with ⟨a, b, hab, hna⟩
      have hlb : b.length ≤ n := by
        rw [hab] at hl
        simp only [List.length_append, List.length_cons] at hl
        omega
      rcases ih b hlb with ⟨w₁, w₂, m, h₁, h₂, hbm, hwm⟩
      rcases pyStrip_decomp a with ⟨aw₁, aw₂, ha₁, ha₂, haa⟩
      refine ⟨aw₁, w₂, pyStrip a ++ ((aw₂ ++ '\n' :: w₁) ++ m), ha₁, h₂, ?_, ?_⟩
      · rw [hab]
        conv_lhs => rw [haa, hbm]
        simp [List.append_assoc]
      · rw [hab, lineTrim_step a b hna]
        have hrun : WsEq ((aw₂ ++ '\n' :: w₁) ++ m) (['\n'] ++ lineTrim b) := by
          refine WsEq.run (aw₂ ++ '\n' :: w₁) ['\n'] ?_ (by decide) (by simp) hwm
          intro x hx
          rcases List.mem_append.mp hx with hx1 | hx2
          · exact ha₂ x hx1
          · rcases List.mem_cons.mp hx2 with rfl | hx3
            · decide
            · exact h₁ x hx3
        exact wsEq_append (wsEq_refl (pyStrip a)) hrun
    · have hlt : lineTrim l = pyStrip l := by
        unfold lineTrim
        rw [splitOnNl_noNl l hnl]
        rfl
      rcases pyStrip_decomp l with ⟨w₁, w₂, h₁, h₂, hl2⟩
      exact ⟨w₁, w₂, pyStrip l, h₁, h₂, hl2, by rw [hlt]; exact wsEq_refl _⟩

theorem hasMatch_lineTrim_false (l : List Char) (h : hasMatch l = false) :
    hasMatch (lineTrim l) = false := by
  rcases lineTrim_decomp l.length l (le_refl _) with ⟨w₁, w₂, m, _, _, hl, hwm⟩
  rw [← wsEq_hasMatch_eq hwm]
  rw [hl] at h
  exact hasMatch_mid_false _ _ _ h

theorem hasMatch_collapseSpaces_false (l : List Char) (h : hasMatch l = false) :
    hasMatch (collapseSpaces l) = false := by
  rw [← wsEq_hasMatch_eq (wsEq_collapseSpaces l)]
  exact h

theorem hasMatch_collapseNl_false (l : List Char) (h : hasMatch l = false) :
    hasMatch (collapseNl l) = false := by
  rw [← wsEq_hasMatch_eq (wsEq_collapseNl l)]
  exact h

/-! The substituted text produced by emailSub contains no further match: the
replacement notice opens with a bracket followed by an s, on which every
attempted parse of the pattern fails. -/

theorem matchEmail_shrink (c : Char) (cs rest : List Char)
    (h : matchEmail (c :: cs) = some rest) : rest.length < (c :: cs).length := by
  rcases matchEmail_decomp _ _ h with ⟨a, w, b, hl, hfa, _, hfb⟩
  have ha : a.length = 6 := by rw [hfa.length_eq]; decide
  have hb : b.length = 10 := by rw [hfb.length_eq]; decide
  have hlen := congrArg List.length hl
  simp only [List.length_append, List.length_cons, ha, hb] at hlen
  simp only [List.length_cons]
  omega

theorem forall2_append_split {R : Char → Char → Prop} : ∀ (x y z : List Char),
    List.Forall₂ R (x ++ y) z →
    ∃ z₁ z₂, z = z₁ ++ z₂ ∧ List.Forall₂ R x z₁ ∧ List.Forall₂ R y z₂ := by
  intro x
  induction x with
  | nil =>
    intro y z h
    exact ⟨[], z, rfl, List.Forall₂.nil, h⟩
  | cons a as ih =>
    intro y z h
    rw [List.cons_append] at h
    cases h with
    | cons h1 h2 =>
      rename_i b bs
      rcases ih y bs h2 with ⟨z₁, z₂, hz, hf1, hf2⟩
      exact ⟨b :: z₁, z₂, by simp [hz], List.Forall₂.cons h1 hf1, hf2⟩

theorem emailSub_cons_some (c : Char) (cs rest : List Char)
    (h : matchEmail (c :: cs) = some rest) :
    emailSub (c :: cs) = emailRepl ++ emailSub rest := by
  rw [emailSub]
  split
  · rename_i r2 heq
    rw [h] at heq
    injection heq with he
    rw [he]
  · rename_i heq
    rw [h] at heq
    exact Option.noConfusion heq

theorem emailSub_cons_none (c : Char) (cs : List Char) (h : matchEmail (c :: cs) = none) :
    emailSub (c :: cs) = c :: emailSub cs := by
  rw [emailSub]
  split
  · rename_i r2 heq
    rw [h] at heq
    exact Option.noConfusion heq
  · rfl

theorem emailSub_struct_aux : ∀ (n : Nat) (l : List Char), l.length ≤ n →
    emailSub l = l ∨ ∃ pfx mt rest, l = pfx ++ (mt ++ rest) ∧
      emailSub l = pfx ++ (emailRepl ++ emailSub rest) := by
  intro n
  induction n with
  | zero =>
    intro l hl
    have hnil : l = [] := by
      cases l
      · rfl
      · simp at hl
    subst hnil
    left
    simp [emailSub.eq_def]
  | succ n ih =>
    intro l hl
    cases l with
    | nil =>
      left
      simp [emailSub.eq_def]
    | cons c cs =>
      rcases hm : matchEmail (c :: cs) with _ | rest
      · rw [emailSub_cons_none c cs hm]
        rcases ih cs (by simp only [List.length_cons] at hl; omega) with
          he | ⟨pfx, mt, rest, hcs, hes⟩
        · left
          rw [he]
        · right
          exact ⟨c :: pfx, mt, rest, by rw [List.cons_append, ← hcs], by simp [hes]⟩
      · rw [emailSub_cons_some c cs rest hm]
        right
        rcases matchEmail_decomp _ _ hm with ⟨a, w, b, hl2, _, _, _⟩
        refine ⟨[], a ++ (w ++ b), rest, ?_, by simp⟩
        rw [hl2]
        simp [List.append_assoc]

theorem matchEmail_junction (x E v : List Char)
    (h : matchEmail (x ++ '[' :: 's' :: E) = some v) :
    ∃ a w b s₃, x = a ++ (w ++ (b ++ s₃)) ∧
      List.Forall₂ (fun p q => lowEq p q = true) a "[email".data ∧
      (∀ c ∈ w, pyIsSpace c = true) ∧
      List.Forall₂ (fun p q => lowEq p q = true) b "protected]".data := by
  have hallP : ∀ z ∈ "protected]".data, lowEq '[' z = false := by decide
  have hallE : ∀ z ∈ "email".data, lowEq '[' z = false := by decide
  rcases matchEmail_decomp _ _ h with ⟨a, w, b, hl, hfa, hw, hfb⟩
  rcases List.append_eq_append_iff.mp hl with ⟨a2, ha, hrest⟩ | ⟨c1, hx, hrest⟩
  · exfalso
    cases a2 with
    | nil =>
      rw [List.nil_append] at hrest
      cases w with
      | nil =>
        rw [List.nil_append] at hrest
        rw [show ("protected]".data : List Char) = 'p' :: "rotected]".data from rfl] at hfb
        cases hfb with
        | cons h1 h2 =>
          rw [List.cons_append] at hrest
          injection hrest with h1x h2x
          rw [← h1x] at h1
          exact absurd h1 (by decide)
      | cons wc ws' =>
        rw [List.cons_append] at hrest
        injection hrest with h1x h2x
        have hws := hw wc (by simp)
        rw [← h1x] at hws
        exact absurd hws (by decide)
    | cons z a2' =>
      rw [List.cons_append] at hrest
      injection hrest with h1x h2x
      rw [ha] at hfa
      rcases forall2_append_split x (z :: a2') _ hfa with ⟨p₁, p₂, hp, hf1, hf2⟩
      cases hf2 with
      | cons hz hrest2 =>
        rename_i pz p₂'
        cases p₁ with
        | nil =>
          rw [List.nil_append] at hp
          rw [show ("[email".data : List Char) = '[' :: "email".data from rfl] at hp
          injection hp with hpz hpp
          cases a2' with
          | nil =>
            rw [← hpp, show ("email".data : List Char) = 'e' :: "mail".data from rfl] at hrest2
            cases hrest2
          | cons s0 a2'' =>
            rw [List.cons_append] at h2x
            injection h2x with hs0 h2y
            rw [← hpp, show ("email".data : List Char) = 'e' :: "mail".data from rfl] at hrest2
            cases hrest2 with
            | cons h5 h6 =>
              rw [← hs0] at h5
              exact absurd h5 (by decide)
        | cons q p₁' =>
          have hmem2 : pz ∈ "email".data := by
            rw [show ("[email".data : List Char) = '[' :: "email".data from rfl,
              List.cons_append] at hp
            injection hp with h5 h6
            rw [h6]
            exact List.mem_append.mpr (Or.inr (by simp))
          have hkill := hallE pz hmem2
          rw [← h1x] at hz
          rw [hkill] at hz
          exact Bool.noConfusion hz
  · rcases List.append_eq_append_iff.mp hrest with ⟨w2, hc1, hr2⟩ | ⟨d1, hwd, hr2⟩
    · rcases List.append_eq_append_iff.mp hr2 with ⟨b2, hw2, hr3⟩ | ⟨e1, hbe, hr3⟩
      · refine ⟨a, w, b, b2, ?_, hfa, hw, hfb⟩
        rw [hx, hc1, hw2]
      · cases e1 with
        | nil =>
          rw [List.append_nil] at hbe
          refine ⟨a, w, b, [], ?_, hfa, hw, hfb⟩
          rw [hx, hc1, ← hbe]
          simp
        | cons z e1' =>
          exfalso
          rw [List.cons_append] at hr3
          injection hr3 with h1x h2x
          rw [hbe] at hfb
          rcases forall2_append_split w2 (z :: e1') _ hfb with ⟨p₁, p₂, hp, hf1, hf2⟩
          cases hf2 with
          | cons hz hrest2 =>
            rename_i pz p₂'
            have hmem : pz ∈ "protected]".data := by
              rw [hp]
              exact List.mem_append.mpr (Or.inr (by simp))
            have hkill := hallP pz hmem
            rw [← h1x] at hz
            rw [hkill] at hz
            exact Bool.noConfusion hz
    · exfalso
      cases d1 with
      | nil =>
        rw [List.nil_append] at hr2
        rw [show ("protected]".data : List Char) = 'p' :: "rotected]".data from rfl] at hfb
        cases hfb with
        | cons h1 h2 =>
          rw [List.cons_append] at hr2
          injection hr2 with h1x h2x
          rw [← h1x] at h1
          exact absurd h1 (by decide)
      | cons z d1' =>
        rw [List.cons_append] at hr2
        injection hr2 with h1x h2x
        have hws := hw z (by rw [hwd]; exact List.mem_append.mpr (Or.inr (by simp)))
        rw [← h1x] at hws
        exact absurd hws (by decide)

theorem noMatchReplDrop : ∀ (i : Nat), i < 32 → ∀ (z v : List Char),
    matchEmail (emailRepl.drop i ++ z) = some v → False := by
  intro i hi z v h
  interval_cases i <;>
    first
      | exact Option.noConfusion (h.symm.trans (matchEmail_head2Fail _ _ (by decide)))
      | exact Option.noConfusion (h.symm.trans (matchEmail_headFail _ _ (by decide)))

theorem hasMatch_emailSub_false_aux : ∀ (n : Nat) (l : List Char), l.length ≤ n →
    hasMatch (emailSub l) = false := by
  intro n
  induction n with
  | zero =>
    intro l hl
    have hnil : l = [] := by
      cases l
      · rfl
      · simp at hl
    subst hnil
    rw [show emailSub [] = [] from by simp [emailSub.eq_def]]
    rfl
  | succ n ih =>
    intro l hl
    cases l with
    | nil =>
      rw [show emailSub [] = [] from by simp [emailSub.eq_def]]
      rfl
    | cons c cs =>
      rcases hm : matchEmail (c :: cs) with _ | rest
      · rw [emailSub_cons_none c cs hm]
        have ihc : hasMatch (emailSub cs) = false :=
          ih cs (by simp only [List.length_cons] at hl; omega)
        have hnone : matchEmail (c :: emailSub cs) = none := by
          rcases hmm : matchEmail (c :: emailSub cs) with _ | v
          · rfl
          · exfalso
            rcases emailSub_struct_aux cs.length cs (le_refl _) with
              he | ⟨pfx, mt, rest2, hcs, hes⟩
            · rw [he, hm] at hmm
              exact Option.noConfusion hmm
            · rw [hes] at hmm
              rw [show c :: (pfx ++ (emailRepl ++ emailSub rest2)) =
                  (c :: pfx) ++
                    ('[' :: 's' :: ("ee original posting for email]".data ++ emailSub rest2))
                from by
                  rw [show emailRepl = '[' :: 's' :: "ee original posting for email]".data
                    from rfl]
                  simp [List.append_assoc]] at hmm
              rcases matchEmail_junction _ _ _ hmm with ⟨a, w, b, s₃, hx, hfa, hw, hfb⟩
              have hsome : matchEmail (c :: cs) = some (s₃ ++ (mt ++ rest2)) := by
                rw [show c :: cs = (c :: pfx) ++ (mt ++ rest2) from by rw [hcs]; rfl, hx]
                rw [show (a ++ (w ++ (b ++ s₃))) ++ (mt ++ rest2) =
                    a ++ (w ++ (b ++ (s₃ ++ (mt ++ rest2)))) from by simp [List.append_assoc]]
                exact matchEmail_build a w b _ hfa hw hfb
              rw [hm] at hsome
              exact Option.noConfusion hsome
        simp only [hasMatch, hnone, Option.isSome_none, Bool.false_or]
        exact ihc
      · rw [emailSub_cons_some c cs rest hm]
        have hlen : rest.length ≤ n := by
          have hs := matchEmail_shrink c cs rest hm
          simp only [List.length_cons] at hs hl
          omega
        have ihr : hasMatch (emailSub rest) = false := ih rest hlen
        cases hfull : hasMatch (emailRepl ++ emailSub rest)
        · rfl
        · exfalso
          rcases hasMatch_true_decomp _ hfull with ⟨u, vv, r, huv, hvv⟩
          rcases List.append_eq_append_iff.mp huv with ⟨a2, hu, hre⟩ | ⟨c2, hrep, hre⟩
          · have hEm : hasMatch (emailSub rest) = true := by
              rw [hre]
              exact hasMatch_of_decomp a2 vv r hvv
            rw [ihr] at hEm
            exact Bool.noConfusion hEm
          · cases c2 with
            | nil =>
              rw [List.nil_append] at hre
              have hEm := hasMatch_of_decomp [] vv r hvv
              rw [List.nil_append] at hEm
              rw [← hre] at ihr
              rw [ihr] at hEm
              exact Bool.noConfusion hEm
            | cons z c2' =>
              have hi : u.length < 32 := by
                have hlr := congrArg List.length hrep
                rw [lenEmailRepl] at hlr
                simp only [List.length_append, List.length_cons] at hlr
                omega
              have hc2 : (z :: c2') = emailRepl.drop u.length := by
                rw [hrep, List.drop_left]
              have hdropm : matchEmail (emailRepl.drop u.length ++ emailSub rest) = some r := by
                rw [← hc2, ← hre]
                exact hvv
              exact noMatchReplDrop u.length hi _ r hdropm

theorem hasMatch_emailSub_false (l : List Char) : hasMatch (emailSub l) = false :=
  hasMatch_emailSub_false_aux l.length l (le_refl _)

theorem hasMatch_clean_text (t : List Char) : hasMatch (clean_text t) = false := by
  unfold clean_text
  split
  · rfl
  · apply hasMatch_pyStrip_false
    apply hasMatch_lineTrim_false
    apply hasMatch_collapseNl_false
    apply hasMatch_collapseSpaces_false
    exact hasMatch_emailSub_false _

/-! Character provenance through the normalizer: every output character is an
input character, a replacement-notice character, a space or a newline, so the
artifact substitutions are the identity on normalizer output. -/

theorem mem_of_mem_dropWhile (p : Char → Bool) : ∀ (l : List Char) (c : Char),
    c ∈ l.dropWhile p → c ∈ l := by
  intro l
  induction l with
  | nil =>
    intro c hc
    simpa using hc
  | cons a as ih =>
    intro c hc
    rw [List.dropWhile_cons] at hc
    by_cases hpa : p a = true
    · rw [if_pos hpa] at hc
      exact List.mem_cons_of_mem a (ih c hc)
    · rw [if_neg hpa] at hc
      exact hc

theorem fixNbsp_ne (e : Char) : fixNbsp e ≠ '\xa0' := by
  unfold fixNbsp
  split
  · decide
  · rename_i h
    exact h

theorem mem_fixArtifacts_good (t : List Char) (c : Char) (hc : c ∈ fixArtifacts t) :
    c ≠ '\xa0' ∧ c ≠ 'Â' ∧ c ≠ '·' := by
  unfold fixArtifacts at hc
  rcases List.mem_map.mp hc with ⟨d, hd, hdc⟩
  rcases List.mem_filter.mp hd with ⟨hd2, hdA⟩
  rcases List.mem_map.mp hd2 with ⟨e, he, hed⟩
  subst hdc
  unfold fixDot
  split
  · exact ⟨by decide, by decide, by decide⟩
  · rename_i hdot
    refine ⟨?_, ?_, hdot⟩
    · rw [← hed]
      exact fixNbsp_ne e
    · simpa using hdA

theorem mem_emailSub_aux : ∀ (n : Nat) (l : List Char), l.length ≤ n → ∀ (c : Char),
    c ∈ emailSub l → c ∈ l ∨ c ∈ emailRepl := by
  intro n
  induction n with
  | zero =>
    intro l hl c hc
    have hnil : l = [] := by
      cases l
      · rfl
      · simp at hl
    subst hnil
    rw [show emailSub [] = [] from by simp [emailSub.eq_def]] at hc
    exact absurd hc (List.not_mem_nil c)
  | succ n ih =>
    intro l hl c hc
    cases l with
    | nil =>
      rw [show emailSub [] = [] from by simp [emailSub.eq_def]] at hc
      exact absurd hc (List.not_mem_nil c)
    | cons a cs =>
      rcases hm : matchEmail (a :: cs) with _ | rest
      · rw [emailSub_cons_none a cs hm] at hc
        rcases List.mem_cons.mp hc with rfl | hc2
        · exact Or.inl (by simp)
        · rcases ih cs (by simp only [List.length_cons] at hl; omega) c hc2 with h1 | h2
          · exact Or.inl (by simp [h1])
          · exact Or.inr h2
      · rw [emailSub_cons_some a cs rest hm] at hc
        rcases List.mem_append.mp hc with h1 | h2
        · exact Or.inr h1
        · have hlen : rest.length ≤ n := by
            have hs := matchEmail_shrink a cs rest hm
            simp only [List.length_cons] at hs hl
            omega
          rcases ih rest hlen c h2 with h1 | h2b
          · rcases matchEmail_decomp _ _ hm with ⟨aa, w, b, hl2, _, _, _⟩
            rw [hl2]
            exact Or.inl (by simp [h1])
          · exact Or.inr h2b

theorem mem_collapseSpaces_aux : ∀ (n : Nat) (l : List Char), l.length ≤ n → ∀ (c : Char),
    c ∈ collapseSpaces l → c ∈ l ∨ c = ' ' := by
  intro n
  induction n with
  | zero =>
    intro l hl c hc
    have hnil : l = [] := by
      cases l
      · rfl
      · simp at hl
    subst hnil
    rw [show collapseSpaces [] = [] from by simp [collapseSpaces.eq_def]] at hc
    exact absurd hc (List.not_mem_nil c)
  | succ n ih =>
    intro l hl c hc
    cases l with
    | nil =>
      rw [show collapseSpaces [] = [] from by simp [collapseSpaces.eq_def]] at hc
      exact absurd hc (List.not_mem_nil c)
    | cons a cs =>
      rw [collapseSpaces.eq_def] at hc
      dsimp only at hc
      split at hc
      · split at hc
        · exact Or.inl hc
        · rename_i d ds
          split at hc
          · rcases List.mem_cons.mp hc with rfl | hc2
            · exact Or.inr rfl
            · have hlen : ((d :: ds).dropWhile isST).length ≤ n := by
                have h1 := lenDropWhile isST (d :: ds)
                simp only [List.length_cons] at hl h1 ⊢
                omega
              rcases ih _ hlen c hc2 with h1 | h2
              · exact Or.inl (List.mem_cons_of_mem a (mem_of_mem_dropWhile isST _ c h1))
              · exact Or.inr h2
          · rcases List.mem_cons.mp hc with rfl | hc2
            · exact Or.inl (by simp)
            · have hlen : (d :: ds).length ≤ n := by
                simp only [List.length_cons] at hl ⊢
                omega
              rcases ih _ hlen c hc2 with h1 | h2
              · exact Or.inl (List.mem_cons_of_mem a h1)
              · exact Or.inr h2
      · rcases List.mem_cons.mp hc with rfl | hc2
        · exact Or.inl (by simp)
        · have hlen : cs.length ≤ n := by
            simp only [List.length_cons] at hl
            omega
          rcases ih _ hlen c hc2 with h1 | h2
          · exact Or.inl (List.mem_cons_of_mem a h1)
          · exact Or.inr h2

theorem mem_collapseNl_aux : ∀ (n : Nat) (l : List Char), l.length ≤ n → ∀ (c : Char),
    c ∈ collapseNl l → c ∈ l ∨ c = '\n' := by
  intro n
  induction n with
  | zero =>
    intro l hl c hc
    have hnil : l = [] := by
      cases l
      · rfl
      · simp at hl
    subst hnil
    rw [show collapseNl [] = [] from by simp [collapseNl.eq_def]] at hc
    exact absurd hc (List.not_mem_nil c)
  | succ n ih =>
    intro l hl c hc
    cases l with
    | nil =>
      rw [show collapseNl [] = [] from by simp [collapseNl.eq_def]] at hc
      exact absurd hc (List.not_mem_nil c)
    | cons a cs =>
      rw [collapseNl.eq_def] at hc
      dsimp only at hc
      split at hc
      · split at hc
        · exact Or.inl hc
        · rename_i d ds
          split at hc
          · split at hc
            · exact Or.inl hc
            · rename_i e es
              split at hc
              · rcases List.mem_cons.mp hc with rfl | hc2
                · exact Or.inr rfl
                · rcases List.mem_cons.mp hc2 with rfl | hc3
                  · exact Or.inr rfl
                  · have hlen : ((d :: e :: es).dropWhile (fun x => x = '\n')).length ≤ n := by
                      have h1 := lenDropWhile (fun x => decide (x = '\n')) (d :: e :: es)
                      simp only [List.length_cons] at hl h1 ⊢
                      omega
                    rcases ih _ hlen c hc3 with h1 | h2
                    · exact Or.inl (List.mem_cons_of_mem a
                        (mem_of_mem_dropWhile _ _ c h1))
                    · exact Or.inr h2
              · rcases List.mem_cons.mp hc with rfl | hc2
                · exact Or.inl (by simp)
                · rcases List.mem_cons.mp hc2 with rfl | hc3
                  · exact Or.inl (by simp)
                  · have hlen : (e :: es).length ≤ n := by
                      simp only [List.length_cons] at hl ⊢
                      omega
                    rcases ih _ hlen c hc3 with h1 | h2
                    · exact Or.inl (by simp [h1])
                    · exact Or.inr h2
          · rcases List.mem_cons.mp hc with rfl | hc2
            · exact Or.inl (by simp)
            · have hlen : (d :: ds).length ≤ n := by
                simp only [List.length_cons] at hl ⊢
                omega
              rcases ih _ hlen c hc2 with h1 | h2
              · exact Or.inl (List.mem_cons_of_mem a h1)
              · exact Or.inr h2
      · rcases List.mem_cons.mp hc with rfl | hc2
        · exact Or.inl (by simp)
        · have hlen : cs.length ≤ n := by
            simp only [List.length_cons] at hl
            omega
          rcases ih _ hlen c hc2 with h1 | h2
          · exact Or.inl (List.mem_cons_of_mem a h1)
          · exact Or.inr h2

theorem mem_splitOnNl : ∀ (t : List Char) (s : List Char), s ∈ splitOnNl t →
    ∀ c ∈ s, c ∈ t := by
  intro t
  induction t with
  | nil =>
    intro s hs c hc
    simp [splitOnNl] at hs
    subst hs
    exact absurd hc (List.not_mem_nil c)
  | cons a ts ih =>
    intro s hs c hc
    rw [splitOnNl] at hs
    by_cases ha : a = '\n'
    · rw [if_pos ha] at hs
      rcases List.mem_cons.mp hs with rfl | hs2
      · exact absurd hc (List.not_mem_nil c)
      · exact List.mem_cons_of_mem a (ih s hs2 c hc)
    · rw [if_neg ha] at hs
      rcases hsp : splitOnNl ts with _ | ⟨h0, t0⟩
      · exact absurd hsp (splitOnNl_ne_nil ts)
      · rw [hsp] at hs
        dsimp only at hs
        rcases List.mem_cons.mp hs with rfl | hs2
        · rcases List.mem_cons.mp hc with rfl | hc2
          · simp
          · exact List.mem_cons_of_mem a (ih h0 (by rw [hsp]; simp) c hc2)
        · exact List.mem_cons_of_mem a (ih s (by rw [hsp]; simp [hs2]) c hc)

theorem mem_joinNl : ∀ (L : List (List Char)) (c : Char), c ∈ joinNl L →
    (∃ s ∈ L, c ∈ s) ∨ c = '\n' := by
  intro L
  induction L with
  | nil =>
    intro c hc
    rw [show joinNl [] = [] from rfl] at hc
    exact absurd hc (List.not_mem_nil c)
  | cons x xs ih =>
    intro c hc
    cases xs with
    | nil =>
      rw [show joinNl [x] = x from rfl] at hc
      exact Or.inl ⟨x, by simp, hc⟩
    | cons y ys =>
      rw [show joinNl (x :: y :: ys) = x ++ '\n' :: joinNl (y :: ys) from rfl] at hc
      rcases List.mem_append.mp hc with h1 | h2
      · exact Or.inl ⟨x, by simp, h1⟩
      · rcases List.mem_cons.mp h2 with rfl | h3
        · exact Or.inr rfl
        · rcases ih c h3 with ⟨s, hs, hcs⟩ | hnl
          · exact Or.inl ⟨s, by simp [hs], hcs⟩
          · exact Or.inr hnl

theorem mem_of_pyStrip (l : List Char) (c : Char) (hc : c ∈ pyStrip l) : c ∈ l := by
  unfold pyStrip pyLStrip at hc
  have h1 : c ∈ pyRStrip l := mem_of_mem_dropWhile pyIsSpace _ c hc
  unfold pyRStrip at h1
  rw [List.mem_reverse] at h1
  have h2 := mem_of_mem_dropWhile pyIsSpace _ c h1
  rw [List.mem_reverse] at h2
  exact h2

theorem clean_text_good (t : List Char) : ∀ c ∈ clean_text t,
    c ≠ '\xa0' ∧ c ≠ 'Â' ∧ c ≠ '·' := by
  intro c hc
  unfold clean_text at hc
  split at hc
  · exact absurd hc (List.not_mem_nil c)
  · have h1 := mem_of_pyStrip _ c hc
    unfold lineTrim at h1
    rcases mem_joinNl _ c h1 with ⟨s, hs, hcs⟩ | rfl
    · rcases List.mem_map.mp hs with ⟨s0, hs0, hss⟩
      rw [← hss] at hcs
      have h2 := mem_of_pyStrip s0 c hcs
      have h3 := mem_splitOnNl _ s0 hs0 c h2
      rcases mem_collapseNl_aux _ _ (le_refl _) c h3 with h4 | rfl
      · rcases mem_collapseSpaces_aux _ _ (le_refl _) c h4 with h5 | rfl
        · rcases mem_emailSub_aux _ _ (le_refl _) c h5 with h6 | h7
          · exact mem_fixArtifacts_good t c h6
          · have hall : ∀ x ∈ emailRepl, x ≠ '\xa0' ∧ x ≠ 'Â' ∧ x ≠ '·' := by decide
            exact hall c h7
        · exact ⟨by decide, by decide, by decide⟩
      · exact ⟨by decide, by decide, by decide⟩
    · exact ⟨by decide, by decide, by decide⟩

theorem fixArtifacts_clean_text (t : List Char) :
    fixArtifacts (clean_text t) = clean_text t :=
  fixArtifacts_id (clean_text t) (clean_text_good t)

/-! No match spans the boundary of a concatenation whose right-hand side opens
with a character on which every pattern literal fails and whose first
non-whitespace character is not a p: exactly the shape of the two section
markers the description assembly inserts. -/

theorem forall2_pat2_head : ∀ (b : List Char),
    List.Forall₂ (fun p q => lowEq p q = true) b "protected]".data →
    ∃ b0 bs, b = b0 :: bs ∧ lowEq b0 'p' = true ∧ pyIsSpace b0 = false := by
  intro b hfb
  rw [show ("protected]".data : List Char) = 'p' :: "rotected]".data from rfl] at hfb
  cases hfb with
  | cons h1 h2 =>
    refine ⟨_, _, rfl, h1, ?_⟩
    rename_i b0 bs
    cases hws : pyIsSpace b0
    · rfl
    · rw [ws_lowEq_false b0 'p' hws (by decide)] at h1
      exact Bool.noConfusion h1

theorem hasMatch_marker_append (x y : List Char) (c₀ : Char) (ytail : List Char)
    (hx : hasMatch x = false) (hy : hasMatch y = false)
    (hyc : y = c₀ :: ytail)
    (hk1 : ∀ qc ∈ "[email".data, lowEq c₀ qc = false)
    (hk2 : ∀ qc ∈ "protected]".data, lowEq c₀ qc = false)
    (hk3 : ∀ c₁, (y.dropWhile pyIsSpace).head? = some c₁ → lowEq c₁ 'p' = false) :
    hasMatch (x ++ y) = false := by
  cases hfull : hasMatch (x ++ y)
  · rfl
  · exfalso
    rcases hasMatch_true_decomp _ hfull with ⟨u, vv, r, huv, hvv⟩
    rcases matchEmail_decomp _ _ hvv with ⟨a, w, b, hvd, hfa, hw, hfb⟩
    have hall : x ++ y = u ++ (a ++ (w ++ (b ++ r))) := by rw [huv, hvd]
    rcases List.append_eq_append_iff.mp hall with ⟨u2, hu, hre⟩ | ⟨x2, hxs, hre⟩
    · have hym : hasMatch y = true := by
        rw [hre]
        exact hasMatch_of_decomp u2 _ r (matchEmail_build a w b r hfa hw hfb)
      rw [hy] at hym
      exact Bool.noConfusion hym
    · rcases List.append_eq_append_iff.mp hre with ⟨a2, hx2, hr2⟩ | ⟨x3, ha3, hr2⟩
      · rcases List.append_eq_append_iff.mp hr2 with ⟨w2, ha2w, hr3⟩ | ⟨a3, hww, hr3⟩
        · rcases List.append_eq_append_iff.mp hr3 with ⟨b2, hw2b, hr4⟩ | ⟨b3, hbb, hr4⟩
          · have hxm : hasMatch x = true := by
              rw [hxs, hx2, ha2w, hw2b]
              exact hasMatch_of_decomp u _ b2 (matchEmail_build a w b b2 hfa hw hfb)
            rw [hx] at hxm
            exact Bool.noConfusion hxm
          · cases b3 with
            | nil =>
              rw [List.append_nil] at hbb
              have hxm : hasMatch x = true := by
                rw [hxs, hx2, ha2w, ← hbb]
                have hb : matchEmail (a ++ (w ++ (b ++ []))) = some [] :=
                  matchEmail_build a w b [] hfa hw hfb
                rw [List.append_nil] at hb
                exact hasMatch_of_decomp u _ [] hb
              rw [hx] at hxm
              exact Bool.noConfusion hxm
            | cons z b3' =>
              rw [hyc, List.cons_append] at hr4
              injection hr4 with hz htail
              rw [hbb] at hfb
              rcases forall2_append_split w2 (z :: b3') _ hfb with ⟨p₁, p₂, hp, hf1b, hf2⟩
              cases hf2 with
              | cons hzp hrest2 =>
                rename_i pz p₂'
                have hmem : pz ∈ "protected]".data := by
                  rw [hp]
                  exact List.mem_append.mpr (Or.inr (by simp))
                rw [← hz] at hzp
                rw [hk2 pz hmem] at hzp
                exact Bool.noConfusion hzp
        · rcases forall2_pat2_head b hfb with ⟨b0, bs, hb, hb0, hb0ws⟩
          have hdw : (y.dropWhile pyIsSpace).head? = some b0 := by
            rw [hr3, hb]
            rw [dropWhile_append_all pyIsSpace a3 _
              (fun cc hcc => hw cc (by rw [hww]; exact List.mem_append.mpr (Or.inr hcc)))]
            rw [List.cons_append, List.dropWhile_cons, if_neg (by simp [hb0ws])]
            rfl
          rw [hk3 b0 hdw] at hb0
          exact Bool.noConfusion hb0
      · cases x3 with
        | nil =>
          rw [List.nil_append] at hr2
          rcases forall2_pat2_head b hfb with ⟨b0, bs, hb, hb0, hb0ws⟩
          have hdw : (y.dropWhile pyIsSpace).head? = some b0 := by
            rw [hr2, hb]
            rw [dropWhile_append_all pyIsSpace w _ hw]
            rw [List.cons_append, List.dropWhile_cons, if_neg (by simp [hb0ws])]
            rfl
          rw [hk3 b0 hdw] at hb0
          exact Bool.noConfusion hb0
        | cons z x3' =>
          rw [hyc, List.cons_append] at hr2
          injection hr2 with hz htail
          rw [ha3] at hfa
          rcases forall2_append_split x2 (z :: x3') _ hfa with ⟨p₁, p₂, hp, hf1b, hf2⟩
          cases hf2 with
          | cons hzp hrest2 =>
            rename_i pz p₂'
            have hmem : pz ∈ "[email".data := by
              rw [hp]
              exact List.mem_append.mpr (Or.inr (by simp))
            rw [← hz] at hzp
            rw [hk1 pz hmem] at hzp
            exact Bool.noConfusion hzp

theorem hasMatch_nobracket_pad : ∀ (w m : List Char), (∀ c ∈ w, lowEq c '[' = false) →
    hasMatch (w ++ m) = hasMatch m := by
  intro w
  induction w with
  | nil => intro m _; rfl
  | cons c cs ih =>
    intro m h
    rw [List.cons_append]
    simp only [hasMatch, matchEmail_headFail c _ (h c (by simp)), Option.isSome_none,
      Bool.false_or]
    exact ih m (fun d hd => h d (by simp [hd]))

theorem hasMatch_skillsMarker (x q : List Char) (hx : hasMatch x = false)
    (hq : hasMatch q = false) :
    hasMatch (x ++ ("\n\n=== Skills & Qualifications ===\n".data ++ q)) = false := by
  have hy : hasMatch ("\n\n=== Skills & Qualifications ===\n".data ++ q) = false := by
    rw [hasMatch_nobracket_pad _ _ (by decide)]
    exact hq
  refine hasMatch_marker_append x _ '\n' ("\n=== Skills & Qualifications ===\n".data ++ q)
    hx hy rfl (by decide) (by decide) ?_
  intro c₁ hc₁
  rw [show ("\n\n=== Skills & Qualifications ===\n".data ++ q).dropWhile pyIsSpace =
      '=' :: ("== Skills & Qualifications ===\n".data ++ q) from by
    rw [show ("\n\n=== Skills & Qualifications ===\n".data ++ q) =
        '\n' :: '\n' :: '=' :: ("== Skills & Qualifications ===\n".data ++ q) from rfl]
    rw [List.dropWhile_cons, if_pos (by decide), List.dropWhile_cons, if_pos (by decide),
      List.dropWhile_cons, if_neg (by decide)]] at hc₁
  rw [List.head?_cons] at hc₁
  injection hc₁ with he
  rw [← he]
  decide

theorem hasMatch_respMarker (x r : List Char) (hx : hasMatch x = false)
    (hr : hasMatch r = false) :
    hasMatch (x ++ ("\n\n=== Responsibilities ===\n".data ++ r)) = false := by
  have hy : hasMatch ("\n\n=== Responsibilities ===\n".data ++ r) = false := by
    rw [hasMatch_nobracket_pad _ _ (by decide)]
    exact hr
  refine hasMatch_marker_append x _ '\n' ("\n=== Responsibilities ===\n".data ++ r)
    hx hy rfl (by decide) (by decide) ?_
  intro c₁ hc₁
  rw [show ("\n\n=== Responsibilities ===\n".data ++ r).dropWhile pyIsSpace =
      '=' :: ("== Responsibilities ===\n".data ++ r) from by
    rw [show ("\n\n=== Responsibilities ===\n".data ++ r) =
        '\n' :: '\n' :: '=' :: ("== Responsibilities ===\n".data ++ r) from rfl]
    rw [List.dropWhile_cons, if_pos (by decide), List.dropWhile_cons, if_pos (by decide),
      List.dropWhile_cons, if_neg (by decide)]] at hc₁
  rw [List.head?_cons] at hc₁
  injection hc₁ with he
  rw [← he]
  decide

theorem hasMatch_buildFull (d q r : List Char) (hd : hasMatch d = false)
    (hq : hasMatch q = false) (hr : hasMatch r = false) :
    hasMatch (buildFull d q r) = false := by
  unfold buildFull
  have hf1 : hasMatch (if q ≠ [] then d ++ ("\n\n=== Skills & Qualifications ===\n".data ++ q)
      else d) = false := by
    split
    · exact hasMatch_skillsMarker d q hd hq
    · exact hd
  dsimp only
  split
  · exact hasMatch_respMarker _ r hf1 hr
  · exact hf1

theorem buildFull_good (d q r : List Char)
    (hd : ∀ c ∈ d, c ≠ '\xa0' ∧ c ≠ 'Â' ∧ c ≠ '·')
    (hq : ∀ c ∈ q, c ≠ '\xa0' ∧ c ≠ 'Â' ∧ c ≠ '·')
    (hr : ∀ c ∈ r, c ≠ '\xa0' ∧ c ≠ 'Â' ∧ c ≠ '·') :
    ∀ c ∈ buildFull d q r, c ≠ '\xa0' ∧ c ≠ 'Â' ∧ c ≠ '·' := by
  have hm1 : ∀ c ∈ ("\n\n=== Skills & Qualifications ===\n".data : List Char),
      c ≠ '\xa0' ∧ c ≠ 'Â' ∧ c ≠ '·' := by decide
  have hm2 : ∀ c ∈ ("\n\n=== Responsibilities ===\n".data : List Char),
      c ≠ '\xa0' ∧ c ≠ 'Â' ∧ c ≠ '·' := by decide
  have hf1 : ∀ c ∈ (if q ≠ [] then d ++ ("\n\n=== Skills & Qualifications ===\n".data ++ q)
      else d), c ≠ '\xa0' ∧ c ≠ 'Â' ∧ c ≠ '·' := by
    intro c hc
    split at hc
    · rcases List.mem_append.mp hc with h1 | h2
      · exact hd c h1
      · rcases List.mem_append.mp h2 with h3 | h4
        · exact hm1 c h3
        · exact hq c h4
    · exact hd c hc
  intro c hc
  unfold buildFull at hc
  dsimp only at hc
  split at hc
  · rcases List.mem_append.mp hc with h1 | h2
    · exact hf1 c h1
    · rcases List.mem_append.mp h2 with h3 | h4
      · exact hm2 c h3
      · exact hr c h4
  · exact hf1 c hc

theorem mem_of_mem_take (l : List Char) (n : Nat) (c : Char) (hc : c ∈ l.take n) : c ∈ l := by
  rw [← List.take_append_drop n l]
  exact List.mem_append.mpr (Or.inl hc)

theorem cleaned_assemble_bound (d q r : List Char)
    (hd : hasMatch d = false) (hq : hasMatch q = false) (hr : hasMatch r = false)
    (hdg : ∀ c ∈ d, c ≠ '\xa0' ∧ c ≠ 'Â' ∧ c ≠ '·')
    (hqg : ∀ c ∈ q, c ≠ '\xa0' ∧ c ≠ 'Â' ∧ c ≠ '·')
    (hrg : ∀ c ∈ r, c ≠ '\xa0' ∧ c ≠ 'Â' ∧ c ≠ '·') :
    (clean_text (assembleDescription d q r)).length ≤ 3000 := by
  have hbm : hasMatch (buildFull d q r) = false := hasMatch_buildFull d q r hd hq hr
  have hX : hasMatch ((pyStrip (buildFull d q r)).take 3000) = false :=
    hasMatch_take_false _ _ (hasMatch_pyStrip_false _ hbm)
  have hXg : ∀ c ∈ (pyStrip (buildFull d q r)).take 3000,
      c ≠ '\xa0' ∧ c ≠ 'Â' ∧ c ≠ '·' := by
    intro c hc
    exact buildFull_good d q r hdg hqg hrg c
      (mem_of_pyStrip _ c (mem_of_mem_take _ _ c hc))
  have hXfix : fixArtifacts ((pyStrip (buildFull d q r)).take 3000) =
      (pyStrip (buildFull d q r)).take 3000 := fixArtifacts_id _ hXg
  have h1 : (assembleDescription d q r).length ≤ 3000 := by
    unfold assembleDescription
    calc (clean_text ((pyStrip (buildFull d q r)).take 3000)).length
        ≤ ((pyStrip (buildFull d q r)).take 3000).length := by
          apply clean_text_len
          rw [hXfix]
          exact hX
      _ ≤ 3000 := List.length_take_le _ _
  have h2 : (clean_text (assembleDescription d q r)).length ≤
      (assembleDescription d q r).length := by
    apply clean_text_len
    unfold assembleDescription
    rw [fixArtifacts_clean_text]
    exact hasMatch_clean_text _
  omega

/-! Provenance of the three description-class fields: between initialization
and assembly only the section router writes them, and it writes normalizer
output; every other stage of the chain leaves them untouched. -/

theorem setF_desc (j : Job) (f : FieldName) (v : List Char) :
    (j.setF f v).description = j.description := by
  cases f <;> rfl

theorem setF_quals (j : Job) (f : FieldName) (v : List Char) :
    (j.setF f v).qualifications = j.qualifications := by
  cases f <;> rfl

theorem setF_resp (j : Job) (f : FieldName) (v : List Char) :
    (j.setF f v).responsibilities = j.responsibilities := by
  cases f <;> rfl

theorem foldlJob_pres {α : Type} (g : Job → α → Job) (proj : Job → List Char)
    (hg : ∀ (j : Job) (a : α), proj (g j a) = proj j) :
    ∀ (l : List α) (j : Job), proj (l.foldl g j) = proj j := by
  intro l
  induction l with
  | nil => intro j; rfl
  | cons a as ih =>
    intro j
    rw [List.foldl_cons, ih, hg]

theorem m1Item_desc (j : Job) (it : LdItem) : (m1Item j it).description = j.description := by
  unfold m1Item
  repeat first | rfl | split | dsimp only

theorem m1Item_quals (j : Job) (it : LdItem) :
    (m1Item j it).qualifications = j.qualifications := by
  unfold m1Item
  repeat first | rfl | split | dsimp only

theorem m1Item_resp (j : Job) (it : LdItem) :
    (m1Item j it).responsibilities = j.responsibilities := by
  unfold m1Item
  repeat first | rfl | split | dsimp only

theorem method1_desc (scripts : List (List LdItem)) (j : Job) :
    (method1 scripts j).description = j.description :=
  foldlJob_pres _ Job.description
    (fun j2 items => foldlJob_pres m1Item Job.description m1Item_desc items j2) scripts j

theorem method1_quals (scripts : List (List LdItem)) (j : Job) :
    (method1 scripts j).qualifications = j.qualifications :=
  foldlJob_pres _ Job.qualifications
    (fun j2 items => foldlJob_pres m1Item Job.qualifications m1Item_quals items j2) scripts j

theorem method1_resp (scripts : List (List LdItem)) (j : Job) :
    (method1 scripts j).responsibilities = j.responsibilities :=
  foldlJob_pres _ Job.responsibilities
    (fun j2 items => foldlJob_pres m1Item Job.responsibilities m1Item_resp items j2) scripts j

theorem method2_desc (doc : Doc) (j : Job) : (method2 doc j).description = j.description := by
  unfold method2
  repeat first | rfl | split | dsimp only

theorem method2_quals (doc : Doc) (j : Job) :
    (method2 doc j).qualifications = j.qualifications := by
  unfold method2
  repeat first | rfl | split | dsimp only

theorem method2_resp (doc : Doc) (j : Job) :
    (method2 doc j).responsibilities = j.responsibilities := by
  unfold method2
  repeat first | rfl | split | dsimp only

theorem method3_desc (doc : Doc) (j : Job) : (method3 doc j).description = j.description := by
  unfold method3
  split <;> rfl

theorem method3_quals (doc : Doc) (j : Job) :
    (method3 doc j).qualifications = j.qualifications := by
  unfold method3
  split <;> rfl

theorem method3_resp (doc : Doc) (j : Job) :
    (method3 doc j).responsibilities = j.responsibilities := by
  unfold method3
  split <;> rfl

theorem method4_desc (doc : Doc) (j : Job) : (method4 doc j).description = j.description := by
  unfold method4
  repeat first | rfl | split | dsimp only

theorem method4_quals (doc : Doc) (j : Job) :
    (method4 doc j).qualifications = j.qualifications := by
  unfold method4
  repeat first | rfl | split | dsimp only

theorem method4_resp (doc : Doc) (j : Job) :
    (method4 doc j).responsibilities = j.responsibilities := by
  unfold method4
  repeat first | rfl | split | dsimp only

theorem gridStep_desc (prev : Option (List Char)) (l : List Char) (j : Job) :
    (gridStep prev l j).description = j.description := by
  rcases gridStep_cases prev l j with h | ⟨f2, p, _, _, _, h⟩
  · rw [h]
  · rw [h, setF_desc]

theorem gridStep_quals (prev : Option (List Char)) (l : List Char) (j : Job) :
    (gridStep prev l j).qualifications = j.qualifications := by
  rcases gridStep_cases prev l j with h | ⟨f2, p, _, _, _, h⟩
  · rw [h]
  · rw [h, setF_quals]

theorem gridStep_resp (prev : Option (List Char)) (l : List Char) (j : Job) :
    (gridStep prev l j).responsibilities = j.responsibilities := by
  rcases gridStep_cases prev l j with h | ⟨f2, p, _, _, _, h⟩
  · rw [h]
  · rw [h, setF_resp]

theorem gridGo_desc : ∀ (rest : List (List Char)) (prev : Option (List Char)) (j : Job),
    (gridGo prev rest j).description = j.description := by
  intro rest
  induction rest with
  | nil => intro prev j; rw [gridGo]
  | cons l ls ih =>
    intro prev j
    rw [gridGo, ih, gridStep_desc]

theorem gridGo_quals : ∀ (rest : List (List Char)) (prev : Option (List Char)) (j : Job),
    (gridGo prev rest j).qualifications = j.qualifications := by
  intro rest
  induction rest with
  | nil => intro prev j; rw [gridGo]
  | cons l ls ih =>
    intro prev j
    rw [gridGo, ih, gridStep_quals]

theorem gridGo_resp : ∀ (rest : List (List Char)) (prev : Option (List Char)) (j : Job),
    (gridGo prev rest j).responsibilities = j.responsibilities := by
  intro rest
  induction rest with
  | nil => intro prev j; rw [gridGo]
  | cons l ls ih =>
    intro prev j
    rw [gridGo, ih, gridStep_resp]

theorem parseDetails_desc (blocks : List (List Char)) (j : Job) :
    (parse_job_details_section blocks j).description = j.description := by
  unfold parse_job_details_section gridLoop
  exact gridGo_desc _ _ _

theorem parseDetails_quals (blocks : List (List Char)) (j : Job) :
    (parse_job_details_section blocks j).qualifications = j.qualifications := by
  unfold parse_job_details_section gridLoop
  exact gridGo_quals _ _ _

theorem parseDetails_resp (blocks : List (List Char)) (j : Job) :
    (parse_job_details_section blocks j).responsibilities = j.responsibilities := by
  unfold parse_job_details_section gridLoop
  exact gridGo_resp _ _ _

theorem sectionStep_inv (j : Job) (s : Section)
    (h : (∃ t, j.description = clean_text t) ∧ (∃ t, j.qualifications = clean_text t) ∧
      (∃ t, j.responsibilities = clean_text t)) :
    (∃ t, (sectionStep j s).description = clean_text t) ∧
    (∃ t, (sectionStep j s).qualifications = clean_text t) ∧
    (∃ t, (sectionStep j s).responsibilities = clean_text t) := by
  obtain ⟨hd, hq, hr⟩ := h
  unfold sectionStep
  dsimp only
  split
  · exact ⟨⟨_, rfl⟩, hq, hr⟩
  · split
    · exact ⟨hd, ⟨_, rfl⟩, hr⟩
    · split
      · exact ⟨hd, hq, ⟨_, rfl⟩⟩
      · split
        · split
          · split
            · exact ⟨hd, hq, hr⟩
            · exact ⟨hd, hq, hr⟩
          · exact ⟨hd, hq, hr⟩
        · split
          · refine ⟨?_, ?_, ?_⟩
            · rw [parseDetails_desc]
              exact hd
            · rw [parseDetails_quals]
              exact hq
            · rw [parseDetails_resp]
              exact hr
          · exact ⟨hd, hq, hr⟩

theorem sectionsPass_inv : ∀ (ss : List Section) (j : Job),
    ((∃ t, j.description = clean_text t) ∧ (∃ t, j.qualifications = clean_text t) ∧
      (∃ t, j.responsibilities = clean_text t)) →
    (∃ t, (sectionsPass ss j).description = clean_text t) ∧
    (∃ t, (sectionsPass ss j).qualifications = clean_text t) ∧
    (∃ t, (sectionsPass ss j).responsibilities = clean_text t) := by
  intro ss
  induction ss with
  | nil => intro j h; exact h
  | cons s ss ih =>
    intro j h
    simp only [sectionsPass, List.foldl_cons] at ih ⊢
    exact ih _ (sectionStep_inv j s h)

theorem bodyStep_desc (prev l : List Char) (j : Job) :
    (bodyStep prev l j).description = j.description := by
  unfold bodyStep
  repeat first | rfl | exact setF_desc _ _ _ | split | dsimp only

theorem bodyStep_quals (prev l : List Char) (j : Job) :
    (bodyStep prev l j).qualifications = j.qualifications := by
  unfold bodyStep
  repeat first | rfl | exact setF_quals _ _ _ | split | dsimp only

theorem bodyStep_resp (prev l : List Char) (j : Job) :
    (bodyStep prev l j).responsibilities = j.responsibilities := by
  unfold bodyStep
  repeat first | rfl | exact setF_resp _ _ _ | split | dsimp only

theorem bodyGo_desc : ∀ (rest : List (List Char)) (prev : List Char) (j : Job),
    (bodyGo prev rest j).description = j.description := by
  intro rest
  induction rest with
  | nil => intro prev j; rw [bodyGo]
  | cons l ls ih =>
    intro prev j
    rw [bodyGo, ih, bodyStep_desc]

theorem bodyGo_quals : ∀ (rest : List (List Char)) (prev : List Char) (j : Job),
    (bodyGo prev rest j).qualifications = j.qualifications := by
  intro rest
  induction rest with
  | nil => intro prev j; rw [bodyGo]
  | cons l ls ih =>
    intro prev j
    rw [bodyGo, ih, bodyStep_quals]

theorem bodyGo_resp : ∀ (rest : List (List Char)) (prev : List Char) (j : Job),
    (bodyGo prev rest j).responsibilities = j.responsibilities := by
  intro rest
  induction rest with
  | nil => intro prev j; rw [bodyGo]
  | cons l ls ih =>
    intro prev j
    rw [bodyGo, ih, bodyStep_resp]

theorem bodyScanPass_desc (doc : Doc) (j : Job) :
    (bodyScanPass doc j).description = j.description := by
  unfold bodyScanPass
  split
  · rfl
  · exact bodyGo_desc _ _ _

theorem bodyScanPass_quals (doc : Doc) (j : Job) :
    (bodyScanPass doc j).qualifications = j.qualifications := by
  unfold bodyScanPass
  split
  · rfl
  · exact bodyGo_quals _ _ _

theorem bodyScanPass_resp (doc : Doc) (j : Job) :
    (bodyScanPass doc j).responsibilities = j.responsibilities := by
  unfold bodyScanPass
  split
  · rfl
  · exact bodyGo_resp _ _ _

theorem inlineDeadlinePass_desc (doc : Doc) (j : Job) :
    (inlineDeadlinePass doc j).description = j.description := by
  unfold inlineDeadlinePass
  repeat first | rfl | split | dsimp only

theorem inlineDeadlinePass_quals (doc : Doc) (j : Job) :
    (inlineDeadlinePass doc j).qualifications = j.qualifications := by
  unfold inlineDeadlinePass
  repeat first | rfl | split | dsimp only

theorem inlineDeadlinePass_resp (doc : Doc) (j : Job) :
    (inlineDeadlinePass doc j).responsibilities = j.responsibilities := by
  unfold inlineDeadlinePass
  repeat first | rfl | split | dsimp only

theorem typeFix_desc (j : Job) : (typeFix j).description = j.description := by
  unfold typeFix
  split <;> rfl

theorem setCountry_desc (j : Job) : (setCountry j).description = j.description := rfl

theorem combineDesc_desc (j : Job) : (combineDesc j).description =
    assembleDescription j.description j.qualifications j.responsibilities := rfl

theorem cleanFields_desc (j : Job) :
    (cleanFields j).description = clean_text j.description := rfl

theorem chain_inv (doc : Doc) (url : List Char) :
    (∃ t, (inlineDeadlinePass doc (bodyScanPass doc (sectionsPass doc.sections (method4 doc
      (method3 doc (method2 doc (method1 doc.ldScripts (initJob url)))))))).description =
      clean_text t) ∧
    (∃ t, (inlineDeadlinePass doc (bodyScanPass doc (sectionsPass doc.sections (method4 doc
      (method3 doc (method2 doc (method1 doc.ldScripts (initJob url)))))))).qualifications =
      clean_text t) ∧
    (∃ t, (inlineDeadlinePass doc (bodyScanPass doc (sectionsPass doc.sections (method4 doc
      (method3 doc (method2 doc (method1 doc.ldScripts (initJob url)))))))).responsibilities =
      clean_text t) := by
  have hsec := sectionsPass_inv doc.sections (method4 doc (method3 doc (method2 doc
    (method1 doc.ldScripts (initJob url)))))
    (by
      rw [method4_desc, method3_desc, method2_desc, method1_desc, method4_quals, method3_quals,
        method2_quals, method1_quals, method4_resp, method3_resp, method2_resp, method1_resp]
      exact ⟨⟨[], rfl⟩, ⟨[], rfl⟩, ⟨[], rfl⟩⟩)
  rcases hsec with ⟨hd, hq, hr⟩
  refine ⟨?_, ?_, ?_⟩
  · rw [inlineDeadlinePass_desc, bodyScanPass_desc]
    exact hd
  · rw [inlineDeadlinePass_quals, bodyScanPass_quals]
    exact hq
  · rw [inlineDeadlinePass_resp, bodyScanPass_resp]
    exact hr

/-- C3: for every parsed document and URL, the description field of the record
scrape_job_page assembles is at most 3000 characters long.  The fields entering
assembly are section-extractor outputs (or empty), hence already normalized:
they contain no email-placeholder match and no encoding artifact, the inserted
section markers cannot complete a match across a boundary, and therefore the
normalization after the 3000-character truncation, and the final cleaning pass,
are both non-expanding. -/
theorem c3_description_cap (doc : Doc) (url : List Char) :
    (scrape_job_page doc url).description.length ≤ 3000 := by
  rcases chain_inv doc url with ⟨⟨td, hd⟩, ⟨tq, hq⟩, ⟨tr, hr⟩⟩
  unfold scrape_job_page
  rw [cleanFields_desc, setCountry_desc, typeFix_desc, combineDesc_desc, hd, hq, hr]
  exact cleaned_assemble_bound _ _ _ (hasMatch_clean_text td) (hasMatch_clean_text tq)
    (hasMatch_clean_text tr) (clean_text_good td) (clean_text_good tq) (clean_text_good tr)
